import Mathlib

/-!
Shallow embedding of `src/used-cars.py` (a pandas/streamlit exploratory
analysis script for a used-car listings table) and proofs about its
cleaning pipeline, statistics derivation and chart derivations.

Tables are modelled as a list of column names plus a list of rows, each
row a list of cells; a cell is missing (pandas `NaN`), a number (numeric
values, idealised as rationals) or a Python string (modelled as its list
of Unicode code points).
-/

namespace UsedCars

/-- A Python string, modelled as its list of Unicode code points. -/
abbrev PyStr := List Nat

/-- Code points stripped by Python's `str.strip()` with no argument
(space, tab, newline, carriage return, vertical tab, form feed). -/
def isSpace (n : Nat) : Bool :=
  decide (n = 32 ∨ n = 9 ∨ n = 10 ∨ n = 13 ∨ n = 11 ∨ n = 12)

/-- Lower-casing of one code point; ASCII letters A–Z map to a–z,
which is the case relevant to the embedded operations. -/
def lowerChar (n : Nat) : Nat :=
  if 65 ≤ n ∧ n ≤ 90 then n + 32 else n

/-- Python `str.lower()` on the code-point model. -/
def pyLower (s : PyStr) : PyStr := s.map lowerChar

/-- Drop trailing whitespace code points. -/
def dropEndSp : PyStr → PyStr
  | [] => []
  | a :: l => if (dropEndSp l).isEmpty && isSpace a then [] else a :: dropEndSp l

/-- Python `str.strip()` on the code-point model: drop whitespace from
both ends. -/
def pyStrip (s : PyStr) : PyStr := dropEndSp (s.dropWhile isSpace)


instance {ε α : Type} [DecidableEq ε] [DecidableEq α] : DecidableEq (Except ε α) := fun a b =>
  match a, b with
  | Except.error e1, Except.error e2 =>
    if h : e1 = e2 then Decidable.isTrue (by rw [h])
    else Decidable.isFalse (fun he => h (Except.error.inj he))
  | Except.error _, Except.ok _ => Decidable.isFalse (fun he => Except.noConfusion he)
  | Except.ok _, Except.error _ => Decidable.isFalse (fun he => Except.noConfusion he)
  | Except.ok a1, Except.ok a2 =>
    if h : a1 = a2 then Decidable.isTrue (by rw [h])
    else Decidable.isFalse (fun he => h (Except.ok.inj he))

/-- One cell of the table: pandas `NaN`, a numeric value (idealised as a
rational) or a Python string. -/
inductive Cell where
  | missing : Cell
  | num : ℚ → Cell
  | str : PyStr → Cell
deriving DecidableEq

/-- Test for a missing cell (pandas `isnull`). -/
def Cell.isMissing : Cell → Bool
  | Cell.missing => true
  | _ => false

/-- Test for a numeric cell. -/
def Cell.isNum : Cell → Bool
  | Cell.num _ => true
  | _ => false

/-- Test for a string cell. -/
def Cell.isStr : Cell → Bool
  | Cell.str _ => true
  | _ => false

/-- One row of the table. -/
abbrev Row := List Cell

/-- The in-memory DataFrame: a list of column labels and a list of rows.
Each row holds its cells positionally, in column order. -/
structure Table where
  cols : List String
  rows : List Row
deriving DecidableEq

/-- Index of the first occurrence of a column label, `none` when the
column is absent from the schema (`col in data.columns` is `isSome`). -/
def findIdx : List String → String → Option Nat
  | [], _ => none
  | c :: cs, d => if c = d then some 0 else (findIdx cs d).map (· + 1)

/-- The cell of a row at a column position; out-of-range reads give
`missing` (only relevant to ill-formed ragged rows). -/
def getCell (r : Row) (i : Nat) : Cell := (r.get? i).getD Cell.missing

/-- Replace the cell at one position by a function of itself; rows that
are too short are returned unchanged. -/
def modifyIdx (f : Cell → Cell) : Nat → Row → Row
  | _, [] => []
  | 0, c :: r => f c :: r
  | i + 1, c :: r => c :: modifyIdx f i r

/-- The cells of one column, by position. -/
def colCells (t : Table) (i : Nat) : List Cell := t.rows.map (getCell · i)

/-- Every row has exactly one cell per column label — true of any table
a tabular file loader produces. -/
def Rect (t : Table) : Bool := t.rows.all (fun r => r.length == t.cols.length)

/-- A column never mixes numeric and string cells. `pd.read_csv` always
delivers such columns: a column whose values all parse numerically gets a
numeric dtype, any other column is held as strings. -/
def colHomog (l : List Cell) : Bool :=
  l.all (fun c => !c.isNum) || l.all (fun c => !c.isStr)

/-- Column-wise well-typedness of a loaded table (see `colHomog`). -/
def wellTyped (t : Table) : Bool :=
  (List.range t.cols.length).all (fun i => colHomog (colCells t i))

/-- Numeric value of a digit code point. -/
def digitVal (n : Nat) : Nat := n - 48

/-- Test for a decimal digit code point. -/
def isDigit (n : Nat) : Bool := decide (48 ≤ n ∧ n ≤ 57)

/-- Value of a digit string read in base 10. -/
def digitsVal (l : List Nat) : Nat := l.foldl (fun a d => a * 10 + digitVal d) 0

/-- Numeric parsing as performed by `pd.to_numeric`: optional surrounding
whitespace, an optional sign, then a decimal literal with an optional
fractional part (the numeric-literal subset the embedded program's data
can exercise; scientific notation is not modelled). Returns `none` for
anything else — in the source this is the `errors='coerce'` path. -/
def parseNum (s : PyStr) : Option ℚ :=
  let s1 := pyStrip s
  let signAndRest : Int × PyStr :=
    match s1 with
    | 45 :: r => (-1, r)
    | 43 :: r => (1, r)
    | r => (1, r)
  let sign := signAndRest.1
  let rest := signAndRest.2
  let ipart := rest.takeWhile isDigit
  let after := rest.drop ipart.length
  match after with
  | [] =>
    if ipart.isEmpty then none
    else some (mkRat (sign * (digitsVal ipart : Int)) 1)
  | 46 :: fpart =>
    if fpart.all isDigit && !(ipart.isEmpty && fpart.isEmpty) then
      some (mkRat (sign * ((digitsVal ipart : Int) * ((10 : Nat) ^ fpart.length : Nat)
        + (digitsVal fpart : Int))) ((10 : Nat) ^ fpart.length))
    else none
  | _ => none

/-- Cell-wise effect of `pd.to_numeric(col, errors='coerce')`: numbers
pass through, parseable strings become numbers, anything else becomes
missing, and no error is ever raised. -/
def coerceCell : Cell → Cell
  | Cell.missing => Cell.missing
  | Cell.num q => Cell.num q
  | Cell.str s =>
    match parseNum s with
    | some q => Cell.num q
    | none => Cell.missing

/-- Cell-wise effect of `col.str.strip().str.lower()` on an object-dtype
column: strings are stripped and lower-cased, non-string values become
missing (pandas `.str` semantics on mixed values). -/
def normCell : Cell → Cell
  | Cell.str s => Cell.str (pyLower (pyStrip s))
  | _ => Cell.missing

/-- The numeric columns the script coerces (`numeric_columns`). -/
def numeric_columns : List String := ["price", "mileage", "year"]

/-- The categorical columns the script normalises (`categorical_columns`). -/
def categorical_columns : List String := ["model", "fuel_type", "transmission", "color", "city"]

/-- Row-wise update of the column `c`: a no-op when the column is absent
from the schema. -/
def mapColRow (cols : List String) (c : String) (f : Cell → Cell) (r : Row) : Row :=
  match findIdx cols c with
  | none => r
  | some i => modifyIdx f i r

/-- Apply a cell function to one column of the table (`data[col] = f(data[col])`),
a no-op when the column is absent. -/
def mapCol (t : Table) (c : String) (f : Cell → Cell) : Table :=
  ⟨t.cols, t.rows.map (mapColRow t.cols c f)⟩

/-- Apply a cell function to each listed column in order, skipping absent
columns — the `for col in ...: if col in data.columns:` loop shape. -/
def applyCols (f : Cell → Cell) : List String → Table → Table
  | [], t => t
  | c :: cs, t => applyCols f cs (mapCol t c f)

/-- The row-wise composite effect of `applyCols`. -/
def applyColsRow (f : Cell → Cell) (cs : List String) (cols : List String) (r : Row) : Row :=
  cs.foldl (fun r c => mapColRow cols c f r) r

/-- Step 1, `data.drop_duplicates()`: remove rows equal to an earlier
row; `seen` accumulates the rows already kept. -/
def dropDupsAux {α : Type} [DecidableEq α] (seen : List α) : List α → List α
  | [] => []
  | r :: rs => if r ∈ seen then dropDupsAux seen rs else r :: dropDupsAux (r :: seen) rs

/-- `drop_duplicates` on a row list: first occurrences are kept, order
is preserved. -/
def drop_duplicates {α : Type} [DecidableEq α] (l : List α) : List α := dropDupsAux [] l

/-- The deduplication step together with its reported count
(`initial_count - len(data)`). -/
def dedupStep (t : Table) : Table × Nat :=
  (⟨t.cols, drop_duplicates t.rows⟩, t.rows.length - (drop_duplicates t.rows).length)

/-- Whether a row contains a missing value in any column. -/
def rowHasMissing (r : Row) : Bool := r.any Cell.isMissing

/-- `data.isnull().sum().sum()`: missing cells are counted per column and
the per-column counts are summed. -/
def missingCount (t : Table) : Nat :=
  ((List.range t.cols.length).map (fun i => (colCells t i).countP Cell.isMissing)).sum

/-- Step 2, `data.dropna()`: remove every row containing a missing value
in any column. -/
def dropnaStep (t : Table) : Table :=
  ⟨t.cols, t.rows.filter (fun r => !rowHasMissing r)⟩

/-- Step 3, the numeric-coercion loop over `price`, `mileage`, `year`. -/
def to_numeric_step (t : Table) : Table := applyCols coerceCell numeric_columns t

/-- Whether every numeric column found in the schema holds a non-missing
value in this row (the row survives `dropna(subset=numeric_columns)`). -/
def rowValid (cols : List String) (r : Row) : Bool :=
  numeric_columns.all (fun c =>
    match findIdx cols c with
    | some i => !(getCell r i).isMissing
    | none => true)

/-- Step 4, `data.dropna(subset=numeric_columns)` with its reported
count. pandas raises `KeyError` when a subset label is absent from the
schema — this call is not guarded by a column-presence check. -/
def invalidStep (t : Table) : Except String (Table × Nat) :=
  if numeric_columns.all (fun c => (findIdx t.cols c).isSome) then
    Except.ok (⟨t.cols, t.rows.filter (rowValid t.cols)⟩,
      t.rows.length - (t.rows.filter (rowValid t.cols)).length)
  else
    Except.error "KeyError"

/-- One iteration of the categorical-normalisation loop:
`data[col] = data[col].str.strip().str.lower()` guarded by
`if col in data.columns`. The `.str` accessor raises `AttributeError`
when the (non-empty) column holds only numeric values. -/
def normOne (c : String) (t : Table) : Except String Table :=
  match findIdx t.cols c with
  | none => Except.ok t
  | some i =>
    if !t.rows.isEmpty && (colCells t i).all Cell.isNum then
      Except.error "AttributeError"
    else
      Except.ok (mapCol t c normCell)

/-- The normalisation loop over a list of column names. -/
def normChain : List String → Table → Except String Table
  | [], t => Except.ok t
  | c :: cs, t => (normOne c t).bind (normChain cs)

/-- Step 5, the categorical-normalisation loop of the script. -/
def normStep (t : Table) : Except String Table := normChain categorical_columns t

/-- The three counts the cleaning stage reports: duplicate rows removed,
missing cells observed, rows with invalid numeric values removed. -/
structure CleanCounts where
  dups : Nat
  missing : Nat
  invalid : Nat
deriving DecidableEq

/-- The full cleaning pipeline of `src/used-cars.py` lines 23–52:
deduplication, missing-value removal, numeric coercion, invalid-row
removal, categorical normalisation, with the reported counts. A raised
pandas exception surfaces as `Except.error`. -/
def cleanPipeline (t : Table) : Except String (Table × CleanCounts) :=
  let d := dedupStep t
  let t1 := d.1
  let m := missingCount t1
  let t2 := dropnaStep t1
  let t3 := to_numeric_step t2
  match invalidStep t3 with
  | Except.error e => Except.error e
  | Except.ok (t4, inv) =>
    match normStep t4 with
    | Except.error e => Except.error e
    | Except.ok t5 => Except.ok (t5, ⟨d.2, m, inv⟩)

/-- The cells of a named column, empty when the column is absent
(`data[col]` accesses never reached when the guard fails). -/
def getCol (t : Table) (c : String) : List Cell :=
  match findIdx t.cols c with
  | none => []
  | some i => t.rows.map (getCell · i)

/-- Numeric value of a cell; only applied to numeric cells in any
reachable state. -/
def cellQ : Cell → ℚ
  | Cell.num q => q
  | _ => 0

/-- Minimum of a list of rationals, `none` on the empty list — pandas
`Series.min()` yields `NaN` there. -/
def minRat (l : List ℚ) : Option ℚ :=
  l.foldl (fun acc q => match acc with
    | none => some q
    | some m => some (min m q)) none

/-- Maximum of a list of rationals, `none` on the empty list. -/
def maxRat (l : List ℚ) : Option ℚ :=
  l.foldl (fun acc q => match acc with
    | none => some q
    | some m => some (max m q)) none

/-- Rational addition, written out through `mkRat` so that it stays
kernel-computable:
`a/b + c/d = (a*d + c*b) / (b*d)`. -/
def ratAdd (a b : ℚ) : ℚ :=
  mkRat (a.num * (b.den : Int) + b.num * (a.den : Int)) (a.den * b.den)

/-- Sum of a list of rationals. -/
def ratSum (l : List ℚ) : ℚ := l.foldr ratAdd 0

/-- Division of a rational by a natural number, through `mkRat`
(`0` on a zero divisor, the convention rational division also uses). -/
def ratDivNat (q : ℚ) (n : Nat) : ℚ := mkRat q.num (q.den * n)

/-- Mean of a list of rationals (sum divided by length), `none` on the
empty list — pandas `Series.mean()` yields `NaN` there. -/
def meanQ (l : List ℚ) : Option ℚ :=
  if l.isEmpty then none else some (ratDivNat (ratSum l) l.length)

/-- Total mean, sum divided by length (used where the group is known
non-empty). -/
def meanTotal (l : List ℚ) : ℚ := ratDivNat (ratSum l) l.length

/-- Python `int()` of a number: truncation toward zero. -/
def intOfRat (q : ℚ) : Int := Int.tdiv q.num (q.den : Int)

/-- The record of summary statistics the script builds (lines 64–70):
total row count, mean price in lakhs, mean mileage, oldest and newest
year. The two means are displayed formatted; a `none` renders as `nan`
without raising, whereas `int(...)` of a missing min/max raises. -/
structure Stats where
  totalCars : Nat
  avgPriceLakhs : Option ℚ
  avgMileage : Option ℚ
  oldestYear : Int
  newestYear : Int
deriving DecidableEq

/-- The statistics derivation. `data['price']` on an absent column
raises `KeyError`; `int(data['year'].min())` on an empty (or all-`NaN`)
column raises `ValueError` because the min is `NaN`. -/
def statistics (t : Table) : Except String Stats :=
  if "price" ∈ t.cols ∧ "mileage" ∈ t.cols ∧ "year" ∈ t.cols then
    let priceVals := ((getCol t "price").filter (fun c => !c.isMissing)).map cellQ
    let mileageVals := ((getCol t "mileage").filter (fun c => !c.isMissing)).map cellQ
    let yearVals := ((getCol t "year").filter (fun c => !c.isMissing)).map cellQ
    match minRat yearVals, maxRat yearVals with
    | some lo, some hi =>
      Except.ok ⟨t.rows.length, (meanQ priceVals).map (ratDivNat · 100000), meanQ mileageVals,
        intOfRat lo, intOfRat hi⟩
    | _, _ => Except.error "ValueError"
  else Except.error "KeyError"

/-- Sort key used by the year-based charts (years are numeric cells in
every reachable state). -/
def cellKey : Cell → ℚ
  | Cell.num q => q
  | _ => 0

/-- Descending-count order of `value_counts` output. -/
def countDesc : Cell × Nat → Cell × Nat → Prop := fun a b => b.2 ≤ a.2

/-- Ascending-year order of `sort_values('year')`. -/
def yearAsc : Cell × Nat → Cell × Nat → Prop := fun a b => cellKey a.1 ≤ cellKey b.1

/-- Ascending order on year cells (the `groupby` key order). -/
def cellAsc : Cell → Cell → Prop := fun a b => cellKey a ≤ cellKey b

instance : DecidableRel countDesc := fun a b => Nat.decLe b.2 a.2

instance : IsTotal (Cell × Nat) countDesc := ⟨fun a b => Nat.le_total b.2 a.2⟩

instance : IsTrans (Cell × Nat) countDesc := ⟨fun _ _ _ h1 h2 => Nat.le_trans h2 h1⟩

instance : DecidableRel yearAsc := fun a b =>
  inferInstanceAs (Decidable (cellKey a.1 ≤ cellKey b.1))

instance : IsTotal (Cell × Nat) yearAsc := ⟨fun a b => le_total (cellKey a.1) (cellKey b.1)⟩

instance : IsTrans (Cell × Nat) yearAsc := ⟨fun _ _ _ h1 h2 => le_trans h1 h2⟩

instance : DecidableRel cellAsc := fun a b =>
  inferInstanceAs (Decidable (cellKey a ≤ cellKey b))

instance : IsTotal Cell cellAsc := ⟨fun a b => le_total (cellKey a) (cellKey b)⟩

instance : IsTrans Cell cellAsc := ⟨fun _ _ _ h1 h2 => le_trans h1 h2⟩

/-- pandas `Series.value_counts()`: distinct non-missing values with
their multiplicities, sorted by count descending (ties in first-seen
order — the sort is modelled as stable). -/
def value_counts (cells : List Cell) : List (Cell × Nat) :=
  List.insertionSort countDesc
    ((drop_duplicates (cells.filter (fun c => !c.isMissing))).map
      (fun v => (v, cells.count v)))

/-- The number of distinct non-missing values of a column. -/
def distinctCount (cells : List Cell) : Nat :=
  (drop_duplicates (cells.filter (fun c => !c.isMissing))).length

/-- The top-15 model-count bar chart (`model_counts.head(15)`), present
only when the column is. -/
def modelChartData (t : Table) : Option (List (Cell × Nat)) :=
  match findIdx t.cols "model" with
  | none => none
  | some _ => some ((value_counts (getCol t "model")).take 15)

/-- The top-15 color-count bar chart (`color_counts.head(15)`). -/
def colorChartData (t : Table) : Option (List (Cell × Nat)) :=
  match findIdx t.cols "color" with
  | none => none
  | some _ => some ((value_counts (getCol t "color")).take 15)

/-- The top-10 city-count bar chart (`city_counts.head(10)`). -/
def cityChartData (t : Table) : Option (List (Cell × Nat)) :=
  match findIdx t.cols "city" with
  | none => none
  | some _ => some ((value_counts (getCol t "city")).take 10)

/-- The year value-count line chart, sorted ascending by year
(`year_counts.sort_values('year')`). -/
def yearChartData (t : Table) : Option (List (Cell × Nat)) :=
  match findIdx t.cols "year" with
  | none => none
  | some _ => some (List.insertionSort yearAsc (value_counts (getCol t "year")))

/-- The mean-price-per-year line chart:
`data.groupby('year')['price'].mean()` (group keys sorted ascending, the
pandas default) with the mean converted to lakhs. -/
def avgPriceYearData (t : Table) : Option (List (Cell × ℚ)) :=
  match findIdx t.cols "year", findIdx t.cols "price" with
  | some yi, some pi =>
    some ((List.insertionSort cellAsc
        (drop_duplicates ((getCol t "year").filter (fun c => !c.isMissing)))).map
      (fun y => (y, ratDivNat (meanTotal ((t.rows.filter (fun r => getCell r yi == y)).map
        (fun r => cellQ (getCell r pi)))) 100000)))
  | _, _ => none

/-- Effect of `data['price'] / 100_000` on one cell. -/
def divLakh : Cell → Cell
  | Cell.num q => Cell.num (ratDivNat q 100000)
  | _ => Cell.missing

/-- The assignment `data['price_in_lakhs'] = data['price'] / 100_000`
(lines 105 and 115): overwrites the derived column when it already
exists, otherwise appends it as a new last column. A no-op when `price`
is absent, since both assignments sit under a presence guard. -/
def priceLakhsAssign (t : Table) : Table :=
  match findIdx t.cols "price" with
  | none => t
  | some i =>
    match findIdx t.cols "price_in_lakhs" with
    | some j => ⟨t.cols, t.rows.map (fun r => modifyIdx (fun _ => divLakh (getCell r i)) j r)⟩
    | none => ⟨t.cols ++ ["price_in_lakhs"], t.rows.map (fun r => r ++ [divLakh (getCell r i)])⟩

/-- Table effect of the model-count chart block: read-only. -/
def modelBlockEffect (t : Table) : Table := t

/-- Table effect of the fuel-type chart block: read-only. -/
def fuelBlockEffect (t : Table) : Table := t

/-- Table effect of the transmission chart block: read-only. -/
def transmissionBlockEffect (t : Table) : Table := t

/-- Table effect of the price-distribution block: assigns
`price_in_lakhs` (line 105) under the `'price' in data.columns` guard. -/
def priceBlockEffect (t : Table) : Table := priceLakhsAssign t

/-- Table effect of the mileage-vs-price block: re-assigns
`price_in_lakhs` (line 115) when both guard columns are present; the
scatter's own outlier filter builds a separate frame and does not touch
`data`. -/
def mileageBlockEffect (t : Table) : Table :=
  match findIdx t.cols "mileage", findIdx t.cols "price" with
  | some _, some _ => priceLakhsAssign t
  | _, _ => t

/-- Table effect of the year-trend chart block: read-only. -/
def yearBlockEffect (t : Table) : Table := t

/-- Table effect of the color-count chart block: read-only. -/
def colorBlockEffect (t : Table) : Table := t

/-- Table effect of the average-price-by-year chart block: read-only. -/
def avgPriceBlockEffect (t : Table) : Table := t

/-- Table effect of the city-count chart block: read-only. -/
def cityBlockEffect (t : Table) : Table := t

/-- The combined effect of the whole reporting stage (the nine chart
blocks in source order) on the in-memory table. -/
def reportEffect (t : Table) : Table :=
  cityBlockEffect (avgPriceBlockEffect (colorBlockEffect (yearBlockEffect
    (mileageBlockEffect (priceBlockEffect (transmissionBlockEffect
      (fuelBlockEffect (modelBlockEffect t))))))))

theorem lowerChar_idem (n : Nat) : lowerChar (lowerChar n) = lowerChar n := by
  unfold lowerChar
  by_cases h : 65 ≤ n ∧ n ≤ 90
  · rw [if_pos h, if_neg (by omega)]
  · rw [if_neg h, if_neg h]

theorem isSpace_lowerChar (n : Nat) : isSpace (lowerChar n) = isSpace n := by
  unfold lowerChar isSpace
  split
  · rw [decide_eq_decide]
    omega
  · rfl

theorem pyLower_idem (s : PyStr) : pyLower (pyLower s) = pyLower s := by
  unfold pyLower
  rw [List.map_map]
  exact List.map_congr_left (fun a _ => lowerChar_idem a)

theorem dropWhile_isSpace_idem (s : PyStr) :
    (s.dropWhile isSpace).dropWhile isSpace = s.dropWhile isSpace := by
  induction s with
  | nil => rfl
  | cons a l ih =>
    by_cases h : isSpace a
    · simp [List.dropWhile_cons, h, ih]
    · simp [List.dropWhile_cons, h]

theorem dropEndSp_idem (s : PyStr) : dropEndSp (dropEndSp s) = dropEndSp s := by
  induction s with
  | nil => rfl
  | cons a l ih =>
    by_cases h : (dropEndSp l).isEmpty && isSpace a
    · simp [dropEndSp, h]
    · rw [dropEndSp, if_neg (by simp [h]), dropEndSp, ih, if_neg (by simp [h])]

theorem dropWhile_dropEndSp (s : PyStr) :
    (dropEndSp s).dropWhile isSpace = dropEndSp (s.dropWhile isSpace) := by
  induction s with
  | nil => rfl
  | cons a l ih =>
    by_cases h : isSpace a
    · by_cases he : (dropEndSp l).isEmpty
      · have hl : dropEndSp l = [] := by simpa [List.isEmpty_iff] using he
        simp [dropEndSp, he, h, List.dropWhile_cons, hl, ← ih]
      · rw [dropEndSp, if_neg (by simp [he]), List.dropWhile_cons_of_pos (by simp [h]),
          List.dropWhile_cons_of_pos (by simp [h]), ih]
    · rw [dropEndSp, if_neg (by simp [h]), List.dropWhile_cons_of_neg (by simp [h]),
        List.dropWhile_cons_of_neg (by simp [h]), dropEndSp, if_neg (by simp [h])]

theorem map_lower_dropWhile (s : PyStr) :
    (s.map lowerChar).dropWhile isSpace = (s.dropWhile isSpace).map lowerChar := by
  induction s with
  | nil => rfl
  | cons a l ih =>
    by_cases h : isSpace a
    · simp [List.dropWhile_cons, h, isSpace_lowerChar, ih]
    · simp [List.dropWhile_cons, h, isSpace_lowerChar]

theorem map_lower_dropEndSp (s : PyStr) :
    dropEndSp (s.map lowerChar) = (dropEndSp s).map lowerChar := by
  induction s with
  | nil => rfl
  | cons a l ih =>
    have hmape : (dropEndSp (l.map lowerChar)).isEmpty = (dropEndSp l).isEmpty := by
      rw [ih]
      cases dropEndSp l <;> simp
    by_cases h : ((dropEndSp l).isEmpty && isSpace a) = true
    · have h1 : ((dropEndSp (l.map lowerChar)).isEmpty && isSpace (lowerChar a)) = true := by
        rw [hmape, isSpace_lowerChar]
        exact h
      rw [List.map_cons, dropEndSp, if_pos h1, dropEndSp, if_pos h, List.map_nil]
    · have h1 : ¬(((dropEndSp (l.map lowerChar)).isEmpty && isSpace (lowerChar a)) = true) := by
        rw [hmape, isSpace_lowerChar]
        exact h
      rw [List.map_cons, dropEndSp, if_neg h1, dropEndSp, if_neg h, List.map_cons, ih]

theorem pyStrip_idem (s : PyStr) : pyStrip (pyStrip s) = pyStrip s := by
  unfold pyStrip
  rw [dropWhile_dropEndSp, dropWhile_isSpace_idem, dropEndSp_idem]

theorem pyStrip_lower_comm (s : PyStr) :
    pyStrip (pyLower s) = pyLower (pyStrip s) := by
  unfold pyStrip pyLower
  rw [map_lower_dropWhile, map_lower_dropEndSp]

/-- A fully normalised string (the result of `.str.strip().str.lower()`)
is a fixed point of stripping. -/
theorem pyStrip_norm_fixed (s : PyStr) :
    pyStrip (pyLower (pyStrip s)) = pyLower (pyStrip s) := by
  rw [pyStrip_lower_comm, pyStrip_idem]

/-- A fully normalised string is a fixed point of lower-casing. -/
theorem pyLower_norm_fixed (s : PyStr) :
    pyLower (pyLower (pyStrip s)) = pyLower (pyStrip s) :=
  pyLower_idem _

theorem findIdx_get {cols : List String} {c : String} {i : Nat}
    (h : findIdx cols c = some i) : cols.get? i = some c := by
  induction cols generalizing i with
  | nil => simp [findIdx] at h
  | cons d cs ih =>
    by_cases hd : d = c
    · simp [findIdx, hd] at h
      subst h hd
      rfl
    · simp [findIdx, hd] at h
      obtain ⟨j, hj, rfl⟩ := h
      simpa using ih hj

theorem findIdx_lt_length {cols : List String} {c : String} {i : Nat}
    (h : findIdx cols c = some i) : i < cols.length := by
  have := findIdx_get h
  exact List.get?_eq_some.mp this |>.1

theorem findIdx_inj {cols : List String} {a b : String} {i : Nat}
    (ha : findIdx cols a = some i) (hb : findIdx cols b = some i) : a = b := by
  have h1 := findIdx_get ha
  have h2 := findIdx_get hb
  rw [h1] at h2
  exact Option.some.inj h2

theorem findIdx_isSome_iff_mem {cols : List String} {c : String} :
    (findIdx cols c).isSome ↔ c ∈ cols := by
  induction cols with
  | nil => simp [findIdx]
  | cons d cs ih =>
    by_cases hd : d = c
    · simp [findIdx, hd]
    · simp [findIdx, hd, Option.isSome_map, ih, Ne.symm hd]

theorem findIdx_eq_none_iff {cols : List String} {c : String} :
    findIdx cols c = none ↔ c ∉ cols := by
  rw [← findIdx_isSome_iff_mem, Option.not_isSome_iff_eq_none]

theorem findIdx_append_left {cols l : List String} {c : String} {i : Nat}
    (h : findIdx cols c = some i) : findIdx (cols ++ l) c = some i := by
  induction cols generalizing i with
  | nil => simp [findIdx] at h
  | cons d cs ih =>
    by_cases hd : d = c
    · simp [findIdx, hd] at h ⊢
      exact h
    · simp [findIdx, hd] at h ⊢
      obtain ⟨j, hj, rfl⟩ := h
      exact ⟨j, ih hj, rfl⟩

theorem findIdx_append_none {cols l : List String} {c : String}
    (h : findIdx cols c = none) :
    findIdx (cols ++ l) c = (findIdx l c).map (· + cols.length) := by
  induction cols with
  | nil => simp
  | cons d cs ih =>
    by_cases hd : d = c
    · simp [findIdx, hd] at h
    · simp only [findIdx, hd, if_false, Option.map_eq_none'] at h
      cases hl : findIdx l c with
      | none => simp [findIdx, hd, ih h, hl]
      | some j =>
        rw [List.cons_append, show findIdx (d :: (cs ++ l)) c = (findIdx (cs ++ l) c).map (· + 1)
          from by simp [findIdx, hd], ih h, hl]
        simp only [Option.map_some', List.length_cons]
        rw [Nat.add_assoc]

theorem findIdx_append_self {cols : List String} {c : String}
    (h : findIdx cols c = none) : findIdx (cols ++ [c]) c = some cols.length := by
  rw [findIdx_append_none h]
  simp [findIdx]

theorem length_modifyIdx (f : Cell → Cell) (i : Nat) (r : Row) :
    (modifyIdx f i r).length = r.length := by
  induction r generalizing i with
  | nil => cases i <;> rfl
  | cons c r ih =>
    cases i with
    | zero => rfl
    | succ j => simpa [modifyIdx] using ih j

theorem getCell_modifyIdx (f : Cell → Cell) (hf : f Cell.missing = Cell.missing)
    (i : Nat) (r : Row) : getCell (modifyIdx f i r) i = f (getCell r i) := by
  induction r generalizing i with
  | nil => cases i <;> simp [modifyIdx, getCell, hf]
  | cons c r ih =>
    cases i with
    | zero => simp [modifyIdx, getCell]
    | succ j => simpa [modifyIdx, getCell] using ih j

theorem getCell_modifyIdx_ne (f : Cell → Cell) {i j : Nat} (hne : j ≠ i) (r : Row) :
    getCell (modifyIdx f i r) j = getCell r j := by
  induction r generalizing i j with
  | nil => cases i <;> simp [modifyIdx]
  | cons c r ih =>
    cases i with
    | zero =>
      cases j with
      | zero => exact absurd rfl hne
      | succ j' => simp [modifyIdx, getCell]
    | succ i' =>
      cases j with
      | zero => simp [modifyIdx, getCell]
      | succ j' => simpa [modifyIdx, getCell] using ih (fun h => hne (by omega))

theorem modifyIdx_eq_self {f : Cell → Cell} {i : Nat} {r : Row}
    (h : f (getCell r i) = getCell r i) : modifyIdx f i r = r := by
  induction r generalizing i with
  | nil => cases i <;> rfl
  | cons c r ih =>
    cases i with
    | zero => exact congrArg (fun x => x :: r) h
    | succ j =>
      simp only [modifyIdx, List.cons.injEq, true_and]
      exact ih (by simpa [getCell] using h)

theorem getCell_mem {r : Row} {i : Nat} (h : i < r.length) : getCell r i ∈ r := by
  unfold getCell
  rw [List.get?_eq_get h]
  exact List.get_mem r i h

theorem mem_getCell {r : Row} {c : Cell} (h : c ∈ r) :
    ∃ i, i < r.length ∧ getCell r i = c := by
  obtain ⟨⟨i, hi⟩, rfl⟩ := List.mem_iff_get.mp h
  exact ⟨i, hi, by unfold getCell; rw [List.get?_eq_get hi]; rfl⟩

theorem getCell_append_lt {r r' : Row} {i : Nat} (h : i < r.length) :
    getCell (r ++ r') i = getCell r i := by
  unfold getCell
  rw [List.get?_append h]

section DropDups

variable {α : Type} [DecidableEq α]

theorem dropDupsAux_sublist (seen : List α) (l : List α) :
    (dropDupsAux seen l).Sublist l := by
  induction l generalizing seen with
  | nil => exact List.Sublist.refl _
  | cons r rs ih =>
    by_cases h : r ∈ seen
    · simp only [dropDupsAux, if_pos h]
      exact (ih seen).cons r
    · simp only [dropDupsAux, if_neg h]
      exact (ih (r :: seen)).cons₂ r

theorem mem_dropDupsAux {seen l : List α} {a : α} :
    a ∈ dropDupsAux seen l ↔ a ∈ l ∧ a ∉ seen := by
  induction l generalizing seen with
  | nil => simp [dropDupsAux]
  | cons r rs ih =>
    by_cases h : r ∈ seen
    · simp only [dropDupsAux, if_pos h, ih, List.mem_cons]
      constructor
      · rintro ⟨h1, h2⟩
        exact ⟨Or.inr h1, h2⟩
      · rintro ⟨h1 | h1, h2⟩
        · exact absurd (h1 ▸ h) h2
        · exact ⟨h1, h2⟩
    · simp only [dropDupsAux, if_neg h, List.mem_cons, ih]
      by_cases ha : a = r
      · subst ha
        simp [h]
      · simp [ha]

theorem nodup_dropDupsAux (seen : List α) (l : List α) :
    (dropDupsAux seen l).Nodup := by
  induction l generalizing seen with
  | nil => exact List.nodup_nil
  | cons r rs ih =>
    by_cases h : r ∈ seen
    · simp only [dropDupsAux, if_pos h]
      exact ih seen
    · simp only [dropDupsAux, if_neg h]
      refine List.Nodup.cons (fun hmem => ?_) (ih (r :: seen))
      exact (mem_dropDupsAux.mp hmem).2 (List.mem_cons_self r seen)

theorem dropDupsAux_eq_self {l : List α} (hl : l.Nodup) {seen : List α}
    (hd : ∀ a ∈ l, a ∉ seen) : dropDupsAux seen l = l := by
  induction l generalizing seen with
  | nil => rfl
  | cons r rs ih =>
    have hr : r ∉ seen := hd r (List.mem_cons_self r rs)
    simp only [dropDupsAux, if_neg hr, List.cons.injEq, true_and]
    refine ih (List.Nodup.of_cons hl) (fun a ha => ?_)
    rcases List.mem_cons.mp (List.mem_cons_of_mem r ha) with h | h
    · intro hmem
      rcases List.mem_cons.mp hmem with h1 | h1
      · exact (List.nodup_cons.mp hl).1 (h1 ▸ ha)
      · exact hd a (List.mem_cons_of_mem r ha) h1
    · intro hmem
      rcases List.mem_cons.mp hmem with h1 | h1
      · exact (List.nodup_cons.mp hl).1 (h1 ▸ ha)
      · exact hd a (List.mem_cons_of_mem r ha) h1

theorem drop_duplicates_sublist (l : List α) : (drop_duplicates l).Sublist l :=
  dropDupsAux_sublist [] l

theorem nodup_drop_duplicates (l : List α) : (drop_duplicates l).Nodup :=
  nodup_dropDupsAux [] l

theorem mem_drop_duplicates {l : List α} {a : α} :
    a ∈ drop_duplicates l ↔ a ∈ l := by
  unfold drop_duplicates
  rw [mem_dropDupsAux]
  simp

theorem drop_duplicates_eq_self {l : List α} (hl : l.Nodup) :
    drop_duplicates l = l :=
  dropDupsAux_eq_self hl (fun a _ => List.not_mem_nil a)

theorem dropDupsAux_congr {seen seen' l : List α}
    (h : ∀ x, x ∈ seen ↔ x ∈ seen') : dropDupsAux seen l = dropDupsAux seen' l := by
  induction l generalizing seen seen' with
  | nil => rfl
  | cons r rs ih =>
    by_cases hr : r ∈ seen
    · rw [dropDupsAux, if_pos hr, dropDupsAux, if_pos ((h r).mp hr)]
      exact ih h
    · rw [dropDupsAux, if_neg hr, dropDupsAux, if_neg (fun hx => hr ((h r).mpr hx))]
      refine congrArg (r :: ·) (ih (fun x => ?_))
      simp [List.mem_cons, h x]

theorem dropDupsAux_cons_filter (a : α) (seen l : List α) :
    dropDupsAux (a :: seen) l = dropDupsAux seen (l.filter (· ≠ a)) := by
  induction l generalizing seen with
  | nil => rfl
  | cons b rs ih =>
    by_cases hb : b = a
    · subst hb
      rw [dropDupsAux, if_pos (List.mem_cons_self b seen),
        List.filter_cons_of_neg (by simp), ih seen]
    · rw [List.filter_cons_of_pos (by simp [hb])]
      by_cases hseen : b ∈ seen
      · rw [dropDupsAux, if_pos (List.mem_cons_of_mem a hseen), dropDupsAux, if_pos hseen,
          ih seen]
      · have hnot : b ∉ a :: seen := by simp [hb, hseen]
        rw [dropDupsAux, if_neg hnot, dropDupsAux, if_neg hseen]
        refine congrArg (b :: ·) ?_
        rw [@dropDupsAux_congr _ _ (b :: a :: seen) (a :: b :: seen) rs
          (by intro x; simp [List.mem_cons]; tauto)]
        exact ih (b :: seen)

/-- The first row of a list is always kept, and deduplication of the
tail proceeds with all later copies of it removed. -/
theorem drop_duplicates_cons (a : α) (l : List α) :
    drop_duplicates (a :: l) = a :: drop_duplicates (l.filter (· ≠ a)) := by
  unfold drop_duplicates
  rw [dropDupsAux, if_neg (List.not_mem_nil a), dropDupsAux_cons_filter]

end DropDups

theorem length_filter_sub {α : Type} (l : List α) (p : α → Bool) :
    l.length - (l.filter p).length = l.countP (fun a => !p a) := by
  induction l with
  | nil => rfl
  | cons a l ih =>
    by_cases h : p a
    · rw [List.filter_cons_of_pos h, List.countP_cons_of_neg _ _ (by simp [h])]
      simpa using ih
    · rw [List.filter_cons_of_neg (by simpa using h),
        List.countP_cons_of_pos _ _ (by simp [h]), ← ih]
      have := List.length_filter_le p l
      simp only [List.length_cons]
      omega

theorem Cell.isMissing_iff {c : Cell} : c.isMissing = true ↔ c = Cell.missing := by
  cases c <;> simp [Cell.isMissing]

theorem Cell.isNum_iff {c : Cell} : c.isNum = true ↔ ∃ q, c = Cell.num q := by
  cases c <;> simp [Cell.isNum]

theorem Cell.isStr_iff {c : Cell} : c.isStr = true ↔ ∃ s, c = Cell.str s := by
  cases c <;> simp [Cell.isStr]

theorem Cell.cases_of_not_missing_not_num {c : Cell}
    (h1 : c ≠ Cell.missing) (h2 : c.isNum = false) : ∃ s, c = Cell.str s := by
  cases c with
  | missing => exact absurd rfl h1
  | num q => simp [Cell.isNum] at h2
  | str s => exact ⟨s, rfl⟩

theorem coerceCell_isStr (c : Cell) : (coerceCell c).isStr = false := by
  cases c with
  | missing => rfl
  | num q => rfl
  | str s =>
    cases hp : parseNum s <;> simp [coerceCell, hp, Cell.isStr]

theorem coerceCell_missing : coerceCell Cell.missing = Cell.missing := rfl

theorem coerceCell_num {c : Cell} (h : c.isNum = true) : coerceCell c = c := by
  obtain ⟨q, rfl⟩ := Cell.isNum_iff.mp h
  rfl

theorem coerceCell_ne_missing {c : Cell} (h : coerceCell c ≠ Cell.missing) :
    ∃ q, coerceCell c = Cell.num q := by
  cases hc : coerceCell c with
  | missing => exact absurd hc h
  | num q => exact ⟨q, rfl⟩
  | str s => exact absurd (hc ▸ coerceCell_isStr c) (by simp [Cell.isStr])

theorem normCell_missing : normCell Cell.missing = Cell.missing := rfl

theorem rowHasMissing_eq_false {r : Row} :
    rowHasMissing r = false ↔ ∀ c ∈ r, c ≠ Cell.missing := by
  unfold rowHasMissing
  rw [← Bool.not_eq_true, List.any_eq_true]
  simp only [Cell.isMissing_iff]
  constructor
  · intro h c hc he
    exact h ⟨c, hc, he⟩
  · rintro h ⟨c, hc, he⟩
    exact h c hc he

theorem mapColRow_length (cols : List String) (c : String) (f : Cell → Cell) (r : Row) :
    (mapColRow cols c f r).length = r.length := by
  unfold mapColRow
  cases findIdx cols c with
  | none => rfl
  | some i => exact length_modifyIdx f i r

theorem mapCol_cols (t : Table) (c : String) (f : Cell → Cell) :
    (mapCol t c f).cols = t.cols := rfl

theorem mapCol_rows_length (t : Table) (c : String) (f : Cell → Cell) :
    (mapCol t c f).rows.length = t.rows.length := by
  simp [mapCol]

theorem Rect_table_of {cols : List String} {rows : List Row}
    (h : ∀ r ∈ rows, r.length = cols.length) : Rect ⟨cols, rows⟩ = true := by
  unfold Rect
  rw [List.all_eq_true]
  intro r hr
  simpa using h r hr

theorem Rect_spec {t : Table} (h : Rect t = true) :
    ∀ r ∈ t.rows, r.length = t.cols.length := by
  unfold Rect at h
  rw [List.all_eq_true] at h
  intro r hr
  simpa using h r hr

theorem Rect_mapCol {t : Table} (h : Rect t = true) (c : String) (f : Cell → Cell) :
    Rect (mapCol t c f) = true := by
  refine Rect_table_of (fun r hr => ?_)
  obtain ⟨r0, hr0, rfl⟩ := List.mem_map.mp hr
  rw [mapColRow_length]
  exact Rect_spec h r0 hr0

theorem Rect_of_sublist {t : Table} {rows' : List Row} (hs : rows'.Sublist t.rows)
    (h : Rect t = true) : Rect ⟨t.cols, rows'⟩ = true :=
  Rect_table_of (fun r hr => Rect_spec h r (hs.subset hr))

theorem colCells_sublist {cols : List String} {rows rows' : List Row}
    (hs : rows'.Sublist rows) (i : Nat) :
    (colCells ⟨cols, rows'⟩ i).Sublist (colCells ⟨cols, rows⟩ i) :=
  hs.map _

theorem mapCol_of_absent {t : Table} {c : String} (h : findIdx t.cols c = none)
    (f : Cell → Cell) : mapCol t c f = t := by
  unfold mapCol mapColRow
  rw [h]
  cases t
  simp

theorem colCells_mapCol_self {t : Table} {c : String} {i : Nat} {f : Cell → Cell}
    (hf : f Cell.missing = Cell.missing) (h : findIdx t.cols c = some i) :
    colCells (mapCol t c f) i = (colCells t i).map f := by
  unfold colCells mapCol mapColRow
  rw [h, List.map_map, List.map_map]
  refine List.map_congr_left (fun r _ => ?_)
  exact getCell_modifyIdx f hf i r

theorem colCells_mapCol_ne {t : Table} {c : String} {i j : Nat} {f : Cell → Cell}
    (h : findIdx t.cols c = some i) (hne : j ≠ i) :
    colCells (mapCol t c f) j = colCells t j := by
  unfold colCells mapCol mapColRow
  rw [h, List.map_map]
  refine List.map_congr_left (fun r _ => ?_)
  exact getCell_modifyIdx_ne f hne r

theorem mapCol_eq_self {t : Table} {c : String} {i : Nat} {f : Cell → Cell}
    (h : findIdx t.cols c = some i)
    (hfix : ∀ r ∈ t.rows, f (getCell r i) = getCell r i) : mapCol t c f = t := by
  unfold mapCol mapColRow
  rw [h]
  cases t with
  | mk cols rows =>
    simp only [Table.mk.injEq, true_and]
    rw [List.map_congr_left (fun r hr => modifyIdx_eq_self (hfix r hr))]
    simp

theorem applyCols_cols (f : Cell → Cell) (cs : List String) :
    ∀ t : Table, (applyCols f cs t).cols = t.cols := by
  induction cs with
  | nil => intro t; rfl
  | cons c cs ih => intro t; rw [applyCols, ih, mapCol_cols]

theorem applyCols_rows_length (f : Cell → Cell) (cs : List String) :
    ∀ t : Table, (applyCols f cs t).rows.length = t.rows.length := by
  induction cs with
  | nil => intro t; rfl
  | cons c cs ih => intro t; rw [applyCols, ih, mapCol_rows_length]

theorem Rect_applyCols (f : Cell → Cell) (cs : List String) :
    ∀ t : Table, Rect t = true → Rect (applyCols f cs t) = true := by
  induction cs with
  | nil => intro t h; exact h
  | cons c cs ih => intro t h; exact ih _ (Rect_mapCol h c f)

theorem applyCols_rows (f : Cell → Cell) (cs : List String) :
    ∀ t : Table, (applyCols f cs t).rows = t.rows.map (applyColsRow f cs t.cols) := by
  induction cs with
  | nil =>
    intro t
    symm
    rw [List.map_congr_left (fun r _ => show applyColsRow f [] t.cols r = r from rfl)]
    simp
    rfl
  | cons c cs ih =>
    intro t
    rw [applyCols, ih, mapCol_cols]
    unfold mapCol
    rw [List.map_map]
    rfl

theorem applyCols_colCells_not_mem (f : Cell → Cell) (cs : List String) :
    ∀ t : Table, ∀ i : Nat, (∀ c ∈ cs, findIdx t.cols c ≠ some i) →
    colCells (applyCols f cs t) i = colCells t i := by
  induction cs with
  | nil => intro t i _; rfl
  | cons c cs ih =>
    intro t i h
    rw [applyCols]
    have hcols : (mapCol t c f).cols = t.cols := rfl
    have step : colCells (mapCol t c f) i = colCells t i := by
      cases hc : findIdx t.cols c with
      | none => rw [mapCol_of_absent hc]
      | some k =>
        have : i ≠ k := fun he => h c (List.mem_cons_self c cs) (he ▸ hc)
        exact colCells_mapCol_ne hc this
    rw [ih (mapCol t c f) i (fun c' hc' => by rw [hcols]; exact h c' (List.mem_cons_of_mem c hc')),
      step]

theorem applyCols_colCells_mem (f : Cell → Cell) (hf : f Cell.missing = Cell.missing)
    (cs : List String) :
    ∀ t : Table, ∀ c ∈ cs, cs.Nodup → ∀ i : Nat, findIdx t.cols c = some i →
    colCells (applyCols f cs t) i = (colCells t i).map f := by
  induction cs with
  | nil => intro t c hc; exact absurd hc (List.not_mem_nil c)
  | cons d cs ih =>
    intro t c hc hnd i hi
    rw [applyCols]
    by_cases hdc : d = c
    · subst hdc
      have hrest : ∀ c' ∈ cs, findIdx (mapCol t d f).cols c' ≠ some i := by
        intro c' hc' he
        rw [mapCol_cols] at he
        exact (List.nodup_cons.mp hnd).1 ((findIdx_inj he hi) ▸ hc')
      rw [applyCols_colCells_not_mem f cs (mapCol t d f) i hrest,
        colCells_mapCol_self hf hi]
    · have hc' : c ∈ cs := by
        rcases List.mem_cons.mp hc with h | h
        · exact absurd h.symm hdc
        · exact h
      have hstep : colCells (mapCol t d f) i = colCells t i := by
        cases hd : findIdx t.cols d with
        | none => rw [mapCol_of_absent hd]
        | some k =>
          refine colCells_mapCol_ne hd (fun he => ?_)
          exact hdc (findIdx_inj hd (he ▸ hi))
      have := ih (mapCol t d f) c hc' (List.Nodup.of_cons hnd) i
        (by rw [mapCol_cols]; exact hi)
      rw [this, hstep]

theorem normOne_cases {c : String} {t u : Table} (h : normOne c t = Except.ok u) :
    (findIdx t.cols c = none ∧ u = t) ∨
    (∃ i, findIdx t.cols c = some i ∧
      (!t.rows.isEmpty && (colCells t i).all Cell.isNum) = false ∧
      u = mapCol t c normCell) := by
  cases hc : findIdx t.cols c with
  | none =>
    simp only [normOne, hc] at h
    exact Or.inl ⟨rfl, (Except.ok.inj h).symm⟩
  | some i =>
    simp only [normOne, hc] at h
    by_cases hcond : (!t.rows.isEmpty && (colCells t i).all Cell.isNum) = true
    · rw [if_pos hcond] at h
      exact absurd h (by simp)
    · rw [if_neg hcond] at h
      exact Or.inr ⟨i, rfl, by simpa using hcond, (Except.ok.inj h).symm⟩

theorem normOne_ok_cols {c : String} {t u : Table} (h : normOne c t = Except.ok u) :
    u.cols = t.cols := by
  rcases normOne_cases h with ⟨_, rfl⟩ | ⟨i, _, _, rfl⟩
  · rfl
  · rfl

theorem normOne_ok_rows_length {c : String} {t u : Table} (h : normOne c t = Except.ok u) :
    u.rows.length = t.rows.length := by
  rcases normOne_cases h with ⟨_, rfl⟩ | ⟨i, _, _, rfl⟩
  · rfl
  · exact mapCol_rows_length t c normCell

theorem normOne_ok_rect {c : String} {t u : Table} (h : normOne c t = Except.ok u)
    (hR : Rect t = true) : Rect u = true := by
  rcases normOne_cases h with ⟨_, rfl⟩ | ⟨i, _, _, rfl⟩
  · exact hR
  · exact Rect_mapCol hR c normCell

theorem normChain_ok_cols {cs : List String} :
    ∀ {t u : Table}, normChain cs t = Except.ok u → u.cols = t.cols := by
  induction cs with
  | nil =>
    intro t u h
    rw [show u = t from (Except.ok.inj h).symm]
  | cons c cs ih =>
    intro t u h
    unfold normChain at h
    cases hv : normOne c t with
    | error e => rw [hv] at h; exact absurd h (by simp [Except.bind])
    | ok v =>
      rw [hv] at h
      simp only [Except.bind] at h
      rw [ih h, normOne_ok_cols hv]

theorem normChain_ok_rows_length {cs : List String} :
    ∀ {t u : Table}, normChain cs t = Except.ok u → u.rows.length = t.rows.length := by
  induction cs with
  | nil =>
    intro t u h
    rw [show u = t from (Except.ok.inj h).symm]
  | cons c cs ih =>
    intro t u h
    unfold normChain at h
    cases hv : normOne c t with
    | error e => rw [hv] at h; exact absurd h (by simp [Except.bind])
    | ok v =>
      rw [hv] at h
      simp only [Except.bind] at h
      rw [ih h, normOne_ok_rows_length hv]

theorem normChain_ok_rect {cs : List String} :
    ∀ {t u : Table}, normChain cs t = Except.ok u → Rect t = true → Rect u = true := by
  induction cs with
  | nil =>
    intro t u h hR
    rw [show u = t from (Except.ok.inj h).symm]
    exact hR
  | cons c cs ih =>
    intro t u h hR
    unfold normChain at h
    cases hv : normOne c t with
    | error e => rw [hv] at h; exact absurd h (by simp [Except.bind])
    | ok v =>
      rw [hv] at h
      simp only [Except.bind] at h
      exact ih h (normOne_ok_rect hv hR)

theorem normOne_colCells_ne {c : String} {t u : Table} {i : Nat}
    (h : normOne c t = Except.ok u) (hne : findIdx t.cols c ≠ some i) :
    colCells u i = colCells t i := by
  rcases normOne_cases h with ⟨_, rfl⟩ | ⟨k, hk, _, rfl⟩
  · rfl
  · exact colCells_mapCol_ne hk (fun he => hne (he ▸ hk))

theorem normChain_colCells_not_mem {cs : List String} :
    ∀ {t u : Table} {i : Nat}, normChain cs t = Except.ok u →
    (∀ c ∈ cs, findIdx t.cols c ≠ some i) → colCells u i = colCells t i := by
  induction cs with
  | nil =>
    intro t u i h _
    rw [show u = t from (Except.ok.inj h).symm]
  | cons c cs ih =>
    intro t u i h hall
    unfold normChain at h
    cases hv : normOne c t with
    | error e => rw [hv] at h; exact absurd h (by simp [Except.bind])
    | ok v =>
      rw [hv] at h
      simp only [Except.bind] at h
      have hvc : v.cols = t.cols := normOne_ok_cols hv
      rw [ih h (fun c' hc' => by rw [hvc]; exact hall c' (List.mem_cons_of_mem c hc'))]
      exact normOne_colCells_ne hv (hall c (List.mem_cons_self c cs))

theorem normChain_colCells_mem {cs : List String} :
    ∀ {t u : Table} {c : String} {i : Nat}, normChain cs t = Except.ok u →
    cs.Nodup → c ∈ cs → findIdx t.cols c = some i →
    colCells u i = (colCells t i).map normCell ∧
      (!t.rows.isEmpty && (colCells t i).all Cell.isNum) = false := by
  induction cs with
  | nil =>
    intro t u c i _ _ hc
    exact absurd hc (List.not_mem_nil c)
  | cons d cs ih =>
    intro t u c i h hnd hc hi
    unfold normChain at h
    cases hv : normOne d t with
    | error e => rw [hv] at h; exact absurd h (by simp [Except.bind])
    | ok v =>
      rw [hv] at h
      simp only [Except.bind] at h
      have hvc : v.cols = t.cols := normOne_ok_cols hv
      by_cases hdc : d = c
      · subst hdc
        rcases normOne_cases hv with ⟨hnone, rfl⟩ | ⟨k, hk, hcond, rfl⟩
        · rw [hnone] at hi
          exact absurd hi (by simp)
        · have hki : k = i := by rw [hk] at hi; exact Option.some.inj hi
          subst hki
          refine ⟨?_, hcond⟩
          have hrest : ∀ c' ∈ cs, findIdx (mapCol t d normCell).cols c' ≠ some k := by
            intro c' hc' he
            rw [mapCol_cols] at he
            exact (List.nodup_cons.mp hnd).1 ((findIdx_inj he hk) ▸ hc')
          rw [normChain_colCells_not_mem h hrest, colCells_mapCol_self normCell_missing hk]
      · have hc' : c ∈ cs := by
          rcases List.mem_cons.mp hc with h1 | h1
          · exact absurd h1.symm hdc
          · exact h1
        have hstep : colCells v i = colCells t i :=
          normOne_colCells_ne hv (fun he => hdc (findIdx_inj he hi))
        have hemp : v.rows.isEmpty = t.rows.isEmpty := by
          have hlen := normOne_ok_rows_length hv
          cases hvr : v.rows <;> cases htr : t.rows <;> simp_all [List.isEmpty]
        have := ih h (List.Nodup.of_cons hnd) hc' (hvc ▸ hi)
        rw [hstep, hemp] at this
        exact this

theorem normChain_ok_of_fixed {cs : List String} :
    ∀ {t : Table}, (∀ c ∈ cs, ∀ i, findIdx t.cols c = some i →
      ∀ cell ∈ colCells t i, normCell cell = cell ∧ cell.isNum = false) →
    normChain cs t = Except.ok t := by
  induction cs with
  | nil => intro t _; rfl
  | cons c cs ih =>
    intro t hfix
    have hone : normOne c t = Except.ok t := by
      unfold normOne
      cases hc : findIdx t.cols c with
      | none => rfl
      | some i =>
        have hcond : ((!t.rows.isEmpty) && (colCells t i).all Cell.isNum) = false := by
          cases hrows : t.rows with
          | nil => simp [hrows]
          | cons r rs =>
            have hcell : getCell r i ∈ colCells t i := by
              unfold colCells
              rw [hrows]
              exact List.mem_map_of_mem _ (List.mem_cons_self r rs)
            have hnum := (hfix c (List.mem_cons_self c cs) i hc (getCell r i) hcell).2
            have hallf : (colCells t i).all Cell.isNum = false := by
              rw [← Bool.not_eq_true, List.all_eq_true]
              intro hall
              exact absurd (hall _ hcell) (by simp [hnum])
            rw [hallf, Bool.and_false]
        show (if ((!t.rows.isEmpty) && (colCells t i).all Cell.isNum) = true
            then (Except.error "AttributeError" : Except String Table)
            else Except.ok (mapCol t c normCell)) = Except.ok t
        rw [if_neg (by rw [hcond]; simp)]
        refine congrArg Except.ok (mapCol_eq_self hc (fun r hr => ?_))
        exact (hfix c (List.mem_cons_self c cs) i hc (getCell r i)
          (List.mem_map_of_mem _ hr)).1
    unfold normChain
    rw [hone]
    simp only [Except.bind]
    exact ih (fun c' hc' => hfix c' (List.mem_cons_of_mem c hc'))

theorem invalidStep_ok {t : Table}
    (hpres : numeric_columns.all (fun c => (findIdx t.cols c).isSome) = true) :
    invalidStep t = Except.ok (⟨t.cols, t.rows.filter (rowValid t.cols)⟩,
      t.rows.length - (t.rows.filter (rowValid t.cols)).length) := by
  unfold invalidStep
  rw [if_pos hpres]

theorem invalidStep_error {t : Table}
    (hpres : numeric_columns.all (fun c => (findIdx t.cols c).isSome) = false) :
    invalidStep t = Except.error "KeyError" := by
  unfold invalidStep
  rw [if_neg (by rw [hpres]; simp)]

theorem invalidStep_ok_inv {t t4 : Table} {n : Nat}
    (h : invalidStep t = Except.ok (t4, n)) :
    numeric_columns.all (fun c => (findIdx t.cols c).isSome) = true ∧
    t4 = ⟨t.cols, t.rows.filter (rowValid t.cols)⟩ ∧
    n = t.rows.length - (t.rows.filter (rowValid t.cols)).length := by
  by_cases hpres : numeric_columns.all (fun c => (findIdx t.cols c).isSome) = true
  · rw [invalidStep_ok hpres] at h
    have hpair := Except.ok.inj h
    exact ⟨hpres, (congrArg Prod.fst hpair).symm, (congrArg Prod.snd hpair).symm⟩
  · rw [invalidStep_error (by simpa using hpres)] at h
    exact absurd h (by simp)

theorem rowValid_spec {cols : List String} {r : Row} (h : rowValid cols r = true)
    {c : String} (hc : c ∈ numeric_columns) {i : Nat} (hi : findIdx cols c = some i) :
    (getCell r i).isMissing = false := by
  unfold rowValid at h
  rw [List.all_eq_true] at h
  have := h c hc
  rw [hi] at this
  simpa using this

theorem sum_map_add {l : List Nat} {f g : Nat → Nat} :
    (l.map (fun i => f i + g i)).sum = (l.map f).sum + (l.map g).sum := by
  induction l with
  | nil => rfl
  | cons a l ih =>
    simp only [List.map_cons, List.sum_cons, ih]
    omega

theorem countP_getCell (p : Cell → Bool) (r : Row) :
    ((List.range r.length).map (fun i => if p (getCell r i) then 1 else 0)).sum
      = r.countP p := by
  induction r with
  | nil => rfl
  | cons c r ih =>
    rw [List.length_cons, List.range_succ_eq_map, List.map_cons, List.sum_cons,
      List.map_map, List.countP_cons]
    have hshift : ((List.range r.length).map
        ((fun i => if p (getCell (c :: r) i) then 1 else 0) ∘ (· + 1))).sum
        = ((List.range r.length).map (fun i => if p (getCell r i) then 1 else 0)).sum := by
      refine congrArg List.sum (List.map_congr_left (fun i _ => ?_))
      rfl
    rw [hshift, ih]
    by_cases hp : p c
    · simp only [getCell, List.get?]
      rw [if_pos (by simpa using hp), if_pos hp]
      omega
    · simp only [getCell, List.get?]
      rw [if_neg (by simpa using hp), if_neg hp]
      omega

theorem transpose_missing_sum (n : Nat) :
    ∀ rows : List Row, (∀ r ∈ rows, r.length = n) →
    ((List.range n).map (fun i => (rows.map (getCell · i)).countP Cell.isMissing)).sum
      = (rows.map (fun r => r.countP Cell.isMissing)).sum := by
  intro rows
  induction rows with
  | nil => simp
  | cons r rs ih =>
    intro h
    have hstep : ∀ i ∈ List.range n,
        (((r :: rs).map (getCell · i)).countP Cell.isMissing)
          = (if (getCell r i).isMissing then 1 else 0)
            + (rs.map (getCell · i)).countP Cell.isMissing := by
      intro i _
      rw [List.map_cons, List.countP_cons]
      by_cases hp : (getCell r i).isMissing = true <;> simp [hp] <;> omega
    rw [List.map_congr_left hstep, sum_map_add, ih (fun r' hr' => h r' (List.mem_cons_of_mem r hr')),
      ← h r (List.mem_cons_self r rs), countP_getCell, List.map_cons, List.sum_cons]

/-- The column-major missing-cell count (`isnull().sum().sum()`) equals
the row-major count on any rectangular table. -/
theorem missingCount_eq_sum_rows {t : Table} (hR : Rect t = true) :
    missingCount t = (t.rows.map (fun r => r.countP Cell.isMissing)).sum := by
  unfold missingCount
  exact transpose_missing_sum t.cols.length t.rows (Rect_spec hR)

theorem colHomog_of_sublist {l l' : List Cell} (hs : l'.Sublist l)
    (h : colHomog l = true) : colHomog l' = true := by
  unfold colHomog at h ⊢
  rw [Bool.or_eq_true] at h ⊢
  rcases h with h | h
  · left
    rw [List.all_eq_true] at h ⊢
    exact fun c hc => h c (hs.subset hc)
  · right
    rw [List.all_eq_true] at h ⊢
    exact fun c hc => h c (hs.subset hc)

theorem wellTyped_spec {t : Table} (h : wellTyped t = true) {i : Nat}
    (hi : i < t.cols.length) : colHomog (colCells t i) = true := by
  unfold wellTyped at h
  rw [List.all_eq_true] at h
  simpa using h i (List.mem_range.mpr hi)

theorem cleanPipeline_ok_inv {t t' : Table} {cnt : CleanCounts}
    (h : cleanPipeline t = Except.ok (t', cnt)) :
    ∃ t4 inv, invalidStep (to_numeric_step (dropnaStep (dedupStep t).1)) = Except.ok (t4, inv) ∧
      normStep t4 = Except.ok t' ∧
      cnt = ⟨(dedupStep t).2, missingCount (dedupStep t).1, inv⟩ := by
  unfold cleanPipeline at h
  simp only [] at h
  split at h
  next e heq => exact absurd h (by simp)
  next t4 inv heq =>
    split at h
    next e2 heq2 => exact absurd h (by simp)
    next t5 heq2 =>
      have hpair := Except.ok.inj h
      refine ⟨t4, inv, heq, ?_, (congrArg Prod.snd hpair).symm⟩
      rw [heq2]
      exact congrArg Except.ok (congrArg Prod.fst hpair)

theorem numeric_columns_nodup : numeric_columns.Nodup := by decide

theorem categorical_columns_nodup : categorical_columns.Nodup := by decide

theorem numeric_categorical_disjoint :
    ∀ x ∈ numeric_columns, x ∉ categorical_columns := by decide

/-- Master invariant of the cleaning pipeline on well-formed input
tables: the output has the same schema, stays rectangular, contains no
missing value, holds numbers in every present numeric column and
normalised strings in every present categorical column. -/
theorem clean_inv {t t' : Table} {cnt : CleanCounts}
    (hR : Rect t = true) (hW : wellTyped t = true)
    (h : cleanPipeline t = Except.ok (t', cnt)) :
    t'.cols = t.cols ∧ Rect t' = true ∧
    (∀ i, i < t.cols.length → ∀ cell ∈ colCells t' i, cell ≠ Cell.missing) ∧
    (∀ nc ∈ numeric_columns, ∀ i, findIdx t.cols nc = some i →
      ∀ cell ∈ colCells t' i, ∃ q, cell = Cell.num q) ∧
    (∀ cc ∈ categorical_columns, ∀ i, findIdx t.cols cc = some i →
      ∀ cell ∈ colCells t' i, ∃ s, cell = Cell.str s ∧ pyStrip s = s ∧ pyLower s = s) := by
  obtain ⟨t4, inv, hinv, hnorm, hcnt⟩ := cleanPipeline_ok_inv h
  -- step 1: deduplication
  have h1sub : (dedupStep t).1.rows.Sublist t.rows := drop_duplicates_sublist t.rows
  have hR1 : Rect (dedupStep t).1 = true := Rect_of_sublist h1sub hR
  -- step 2: dropna
  have h2sub : (dropnaStep (dedupStep t).1).rows.Sublist (dedupStep t).1.rows :=
    List.filter_sublist _
  have hR2 : Rect (dropnaStep (dedupStep t).1) = true := Rect_of_sublist h2sub hR1
  have hmiss2 : ∀ r ∈ (dropnaStep (dedupStep t).1).rows, rowHasMissing r = false := by
    intro r hr
    have := List.of_mem_filter hr
    simpa using this
  have h2cols : (dropnaStep (dedupStep t).1).cols = t.cols := rfl
  have h2col_sub : ∀ i, (colCells (dropnaStep (dedupStep t).1) i).Sublist (colCells t i) := by
    intro i
    exact (colCells_sublist h2sub i).trans (colCells_sublist h1sub i)
  -- step 3: numeric coercion
  have h3cols : (to_numeric_step (dropnaStep (dedupStep t).1)).cols = t.cols :=
    applyCols_cols coerceCell numeric_columns _
  have hR3 : Rect (to_numeric_step (dropnaStep (dedupStep t).1)) = true :=
    Rect_applyCols coerceCell numeric_columns _ hR2
  have h3len : (to_numeric_step (dropnaStep (dedupStep t).1)).rows.length
      = (dropnaStep (dedupStep t).1).rows.length :=
    applyCols_rows_length coerceCell numeric_columns _
  have h3col_untouched : ∀ i, (∀ nc ∈ numeric_columns, findIdx t.cols nc ≠ some i) →
      colCells (to_numeric_step (dropnaStep (dedupStep t).1)) i
        = colCells (dropnaStep (dedupStep t).1) i := by
    intro i hi
    exact applyCols_colCells_not_mem coerceCell numeric_columns _ i hi
  have h3col_num : ∀ nc ∈ numeric_columns, ∀ i, findIdx t.cols nc = some i →
      colCells (to_numeric_step (dropnaStep (dedupStep t).1)) i
        = (colCells (dropnaStep (dedupStep t).1) i).map coerceCell := by
    intro nc hnc i hi
    exact applyCols_colCells_mem coerceCell coerceCell_missing numeric_columns _ nc hnc
      numeric_columns_nodup i hi
  -- step 4: invalid-row removal
  obtain ⟨hpres, ht4, hinvn⟩ := invalidStep_ok_inv hinv
  have h4cols : t4.cols = t.cols := by rw [ht4]; exact h3cols
  have h4sub : t4.rows.Sublist (to_numeric_step (dropnaStep (dedupStep t).1)).rows := by
    rw [ht4]
    exact List.filter_sublist _
  have hR4 : Rect t4 = true := by
    have := Rect_of_sublist h4sub hR3
    rw [ht4] at this ⊢
    exact Rect_table_of (fun r hr => by
      have := Rect_spec this r hr
      rwa [h3cols] at this ⊢)
  have hvalid4 : ∀ r ∈ t4.rows, rowValid t.cols r = true := by
    intro r hr
    rw [ht4] at hr
    have := List.of_mem_filter hr
    rwa [h3cols] at this
  have h4col_sub : ∀ i, (colCells t4 i).Sublist
      (colCells (to_numeric_step (dropnaStep (dedupStep t).1)) i) := by
    intro i
    rw [ht4]
    have : colCells (to_numeric_step (dropnaStep (dedupStep t).1)) i
        = colCells ⟨t.cols, (to_numeric_step (dropnaStep (dedupStep t).1)).rows⟩ i := by
      unfold colCells
      rfl
    rw [this]
    exact colCells_sublist (by rw [h3cols] at ht4 ⊢; exact List.filter_sublist _) i
  -- no missing value anywhere in t4
  have hnomiss4 : ∀ i, i < t.cols.length → ∀ cell ∈ colCells t4 i, cell ≠ Cell.missing := by
    intro i hi cell hcell
    by_cases htarget : ∃ nc ∈ numeric_columns, findIdx t.cols nc = some i
    · obtain ⟨nc, hnc, hfix⟩ := htarget
      obtain ⟨r, hr, rfl⟩ := List.mem_map.mp hcell
      have := rowValid_spec (hvalid4 r hr) hnc hfix
      intro he
      rw [he] at this
      simp [Cell.isMissing] at this
    · push_neg at htarget
      have hchain : (colCells t4 i).Sublist (colCells (dropnaStep (dedupStep t).1) i) := by
        have := h4col_sub i
        rwa [h3col_untouched i htarget] at this
      have hcell2 := hchain.subset hcell
      obtain ⟨r, hr, rfl⟩ := List.mem_map.mp hcell2
      have hlen : r.length = t.cols.length := Rect_spec hR2 r hr
      have hmem : getCell r i ∈ r := getCell_mem (by omega)
      exact rowHasMissing_eq_false.mp (hmiss2 r hr) _ hmem
  -- numeric columns of t4 hold numbers
  have hnum4 : ∀ nc ∈ numeric_columns, ∀ i, findIdx t.cols nc = some i →
      ∀ cell ∈ colCells t4 i, ∃ q, cell = Cell.num q := by
    intro nc hnc i hi cell hcell
    have hchain : (colCells t4 i).Sublist
        ((colCells (dropnaStep (dedupStep t).1) i).map coerceCell) := by
      have := h4col_sub i
      rwa [h3col_num nc hnc i hi] at this
    obtain ⟨x, _, rfl⟩ := List.mem_map.mp (hchain.subset hcell)
    exact coerceCell_ne_missing
      (hnomiss4 i (findIdx_lt_length hi) _ hcell)
  -- homogeneity carried to t4 on non-numeric columns
  have hhomog4 : ∀ i, i < t.cols.length →
      (∀ nc ∈ numeric_columns, findIdx t.cols nc ≠ some i) →
      colHomog (colCells t4 i) = true := by
    intro i hi hnt
    have hchain : (colCells t4 i).Sublist (colCells t i) := by
      have := h4col_sub i
      rw [h3col_untouched i hnt] at this
      exact this.trans (h2col_sub i)
    exact colHomog_of_sublist hchain (wellTyped_spec hW hi)
  -- step 5: normalisation
  have h5cols : t'.cols = t.cols := by
    rw [normChain_ok_cols hnorm, h4cols]
  have hR5 : Rect t' = true := normChain_ok_rect hnorm hR4
  have hcat5 : ∀ cc ∈ categorical_columns, ∀ i, findIdx t.cols cc = some i →
      ∀ cell ∈ colCells t' i, ∃ s, cell = Cell.str s ∧ pyStrip s = s ∧ pyLower s = s := by
    intro cc hcc i hi cell hcell
    have hi4 : findIdx t4.cols cc = some i := by rw [h4cols]; exact hi
    obtain ⟨hmap, hcond⟩ := normChain_colCells_mem hnorm categorical_columns_nodup hcc hi4
    have hstr4 : ∀ x ∈ colCells t4 i, ∃ s, x = Cell.str s := by
      intro x hx
      have hnt : ∀ nc ∈ numeric_columns, findIdx t.cols nc ≠ some i := by
        intro nc hnc he
        exact numeric_categorical_disjoint nc hnc ((findIdx_inj he hi) ▸ hcc)
      have hhom := hhomog4 i (findIdx_lt_length hi) hnt
      have hnm := hnomiss4 i (findIdx_lt_length hi) x hx
      unfold colHomog at hhom
      rw [Bool.or_eq_true] at hhom
      rcases hhom with hh | hh
      · rw [List.all_eq_true] at hh
        have := hh x hx
        exact Cell.cases_of_not_missing_not_num hnm (by simpa using this)
      · -- all cells are non-strings, hence numbers; the `.str` accessor
        -- would then have raised, contradicting the successful run
        exfalso
        have hne : t4.rows ≠ [] := by
          intro hnil
          unfold colCells at hx
          rw [hnil] at hx
          exact List.not_mem_nil x hx
        have hall : (colCells t4 i).all Cell.isNum = true := by
          rw [List.all_eq_true] at hh ⊢
          intro y hy
          have hnmy := hnomiss4 i (findIdx_lt_length hi) y hy
          have := hh y hy
          cases y with
          | missing => exact absurd rfl hnmy
          | num q => rfl
          | str s => simp [Cell.isStr] at this
        rw [hall, Bool.and_true] at hcond
        simp only [Bool.not_eq_false'] at hcond
        rw [List.isEmpty_iff] at hcond
        exact hne hcond
    rw [hmap] at hcell
    obtain ⟨x, hx, rfl⟩ := List.mem_map.mp hcell
    obtain ⟨s, rfl⟩ := hstr4 x hx
    exact ⟨pyLower (pyStrip s), rfl, pyStrip_norm_fixed s, pyLower_norm_fixed s⟩
  have h5_untouched : ∀ i, (∀ cc ∈ categorical_columns, findIdx t.cols cc ≠ some i) →
      colCells t' i = colCells t4 i := by
    intro i hct
    exact normChain_colCells_not_mem hnorm (fun c hc he => hct c hc (by rwa [h4cols] at he))
  have hnum5 : ∀ nc ∈ numeric_columns, ∀ i, findIdx t.cols nc = some i →
      ∀ cell ∈ colCells t' i, ∃ q, cell = Cell.num q := by
    intro nc hnc i hi cell hcell
    have hct : ∀ cc ∈ categorical_columns, findIdx t.cols cc ≠ some i := by
      intro cc hcc he
      exact numeric_categorical_disjoint nc hnc ((findIdx_inj hi he) ▸ hcc)
    rw [h5_untouched i hct] at hcell
    exact hnum4 nc hnc i hi cell hcell
  have hnomiss5 : ∀ i, i < t.cols.length → ∀ cell ∈ colCells t' i, cell ≠ Cell.missing := by
    intro i hi cell hcell
    by_cases hcat : ∃ cc ∈ categorical_columns, findIdx t.cols cc = some i
    · obtain ⟨cc, hcc, hfix⟩ := hcat
      obtain ⟨s, rfl, _, _⟩ := hcat5 cc hcc i hfix cell hcell
      simp
    · push_neg at hcat
      rw [h5_untouched i hcat] at hcell
      exact hnomiss4 i hi cell hcell
  exact ⟨h5cols, hR5, hnomiss5, hnum5, hcat5⟩

theorem Table.eta (t : Table) : Table.mk t.cols t.rows = t := by
  cases t
  rfl

theorem missingCount_eq_zero {t : Table}
    (h : ∀ i, i < t.cols.length → ∀ cell ∈ colCells t i, cell ≠ Cell.missing) :
    missingCount t = 0 := by
  unfold missingCount
  refine List.sum_eq_zero (fun x hx => ?_)
  obtain ⟨i, hi, rfl⟩ := List.mem_map.mp hx
  rw [List.countP_eq_zero]
  intro c hc
  have := h i (List.mem_range.mp hi) c hc
  simp [Cell.isMissing_iff, this]

theorem rows_nomiss_of_colCells {t : Table} (hR : Rect t = true)
    (h : ∀ i, i < t.cols.length → ∀ cell ∈ colCells t i, cell ≠ Cell.missing) :
    ∀ r ∈ t.rows, rowHasMissing r = false := by
  intro r hr
  rw [rowHasMissing_eq_false]
  intro c hc
  obtain ⟨i, hilt, rfl⟩ := mem_getCell hc
  have hlen := Rect_spec hR r hr
  exact h i (by omega) _ (List.mem_map_of_mem _ hr)

theorem dropna_eq_self {t : Table} (h : ∀ r ∈ t.rows, rowHasMissing r = false) :
    dropnaStep t = t := by
  unfold dropnaStep
  rw [List.filter_eq_self.mpr (fun r hr => by simp [h r hr]), Table.eta]

theorem applyCols_eq_self (f : Cell → Cell) (cs : List String) :
    ∀ t : Table, (∀ c ∈ cs, ∀ i, findIdx t.cols c = some i →
      ∀ r ∈ t.rows, f (getCell r i) = getCell r i) → applyCols f cs t = t := by
  induction cs with
  | nil => intro t _; rfl
  | cons c cs ih =>
    intro t hfix
    rw [applyCols]
    have hc : mapCol t c f = t := by
      cases hf : findIdx t.cols c with
      | none => exact mapCol_of_absent hf f
      | some i => exact mapCol_eq_self hf (hfix c (List.mem_cons_self c cs) i hf)
    rw [hc]
    exact ih t (fun c' hc' => hfix c' (List.mem_cons_of_mem c hc'))

theorem dedupStep_eq_self {t : Table} (h : t.rows.Nodup) :
    dedupStep t = (t, 0) := by
  unfold dedupStep
  rw [drop_duplicates_eq_self h, Table.eta, Nat.sub_self]

theorem invalidStep_eq_self {t : Table}
    (hpres : numeric_columns.all (fun c => (findIdx t.cols c).isSome) = true)
    (hvalid : ∀ r ∈ t.rows, rowValid t.cols r = true) :
    invalidStep t = Except.ok (t, 0) := by
  rw [invalidStep_ok hpres, List.filter_eq_self.mpr hvalid, Table.eta, Nat.sub_self]

/-- A table that is a fixed point of every cleaning step runs through the
pipeline unchanged, with all three reported counts equal to zero. -/
theorem cleanPipeline_fixed {u : Table} (hR : Rect u = true) (hnodup : u.rows.Nodup)
    (hnomiss : ∀ i, i < u.cols.length → ∀ cell ∈ colCells u i, cell ≠ Cell.missing)
    (hnum : ∀ nc ∈ numeric_columns, ∀ i, findIdx u.cols nc = some i →
      ∀ cell ∈ colCells u i, cell.isNum = true)
    (hcat : ∀ cc ∈ categorical_columns, ∀ i, findIdx u.cols cc = some i →
      ∀ cell ∈ colCells u i, normCell cell = cell ∧ cell.isNum = false)
    (hpres : numeric_columns.all (fun c => (findIdx u.cols c).isSome) = true) :
    cleanPipeline u = Except.ok (u, ⟨0, 0, 0⟩) := by
  have h1 : dedupStep u = (u, 0) := dedupStep_eq_self hnodup
  have h2 : dropnaStep u = u := dropna_eq_self (rows_nomiss_of_colCells hR hnomiss)
  have h3 : to_numeric_step u = u := by
    refine applyCols_eq_self coerceCell numeric_columns u (fun c hc i hi r hr => ?_)
    have hcell : getCell r i ∈ colCells u i := List.mem_map_of_mem _ hr
    exact coerceCell_num (hnum c hc i hi _ hcell)
  have hm : missingCount u = 0 := missingCount_eq_zero hnomiss
  have h4 : invalidStep u = Except.ok (u, 0) := by
    refine invalidStep_eq_self hpres (fun r hr => ?_)
    unfold rowValid
    rw [List.all_eq_true]
    intro c hc
    cases hf : findIdx u.cols c with
    | none => simp
    | some i =>
      simp only []
      have hcell : getCell r i ∈ colCells u i := List.mem_map_of_mem _ hr
      have := hnomiss i (findIdx_lt_length hf) _ hcell
      cases hcl : getCell r i with
      | missing => exact absurd hcl.symm (Ne.symm this)
      | num q => simp [Cell.isMissing]
      | str s => simp [Cell.isMissing]
  have h5 : normStep u = Except.ok u :=
    normChain_ok_of_fixed (fun c hc i hi cell hcell => hcat c hc i hi cell hcell)
  unfold cleanPipeline
  simp only [h1, h2, h3, h4, h5, hm]

theorem getCell_mapColRow_ne {cols : List String} {c : String} (f : Cell → Cell) (r : Row)
    {i : Nat} (h : findIdx cols c ≠ some i) :
    getCell (mapColRow cols c f r) i = getCell r i := by
  unfold mapColRow
  cases hc : findIdx cols c with
  | none => rfl
  | some k =>
    refine getCell_modifyIdx_ne f (fun he => ?_) r
    exact h (he ▸ hc)

theorem applyColsRow_getCell_not_mem (f : Cell → Cell) (cs : List String)
    (cols : List String) {i : Nat} (h : ∀ c ∈ cs, findIdx cols c ≠ some i) :
    ∀ r : Row, getCell (applyColsRow f cs cols r) i = getCell r i := by
  induction cs with
  | nil => intro r; rfl
  | cons c cs ih =>
    intro r
    show getCell (applyColsRow f cs cols (mapColRow cols c f r)) i = getCell r i
    rw [ih (fun c' hc' => h c' (List.mem_cons_of_mem c hc')),
      getCell_mapColRow_ne f r (h c (List.mem_cons_self c cs))]

theorem applyColsRow_getCell_mem (f : Cell → Cell) (hf : f Cell.missing = Cell.missing)
    (cs : List String) (cols : List String) (hnd : cs.Nodup) {c : String} (hc : c ∈ cs)
    {i : Nat} (hi : findIdx cols c = some i) :
    ∀ r : Row, getCell (applyColsRow f cs cols r) i = f (getCell r i) := by
  induction cs with
  | nil => exact absurd hc (List.not_mem_nil c)
  | cons d cs ih =>
    intro r
    show getCell (applyColsRow f cs cols (mapColRow cols d f r)) i = f (getCell r i)
    by_cases hdc : d = c
    · subst hdc
      have hrest : ∀ c' ∈ cs, findIdx cols c' ≠ some i := by
        intro c' hc' he
        exact (List.nodup_cons.mp hnd).1 ((findIdx_inj he hi) ▸ hc')
      rw [applyColsRow_getCell_not_mem f cs cols hrest]
      unfold mapColRow
      rw [hi]
      exact getCell_modifyIdx f hf i r
    · have hc' : c ∈ cs := by
        rcases List.mem_cons.mp hc with h1 | h1
        · exact absurd h1.symm hdc
        · exact h1
      rw [ih (List.Nodup.of_cons hnd) hc',
        getCell_mapColRow_ne f r (fun he => hdc (findIdx_inj he hi))]

/-- C1: the spec's edge-case policy says an absent declared column makes
the corresponding step a no-op and the pipeline completes without error.
The code violates this for the numeric columns: `data.dropna(subset=
['price','mileage','year'])` is not guarded by a presence check, and
pandas raises `KeyError` on an absent subset label. On a table that
lacks `year`, the pipeline aborts with `KeyError` instead of
completing. -/
theorem claim1_absent_numeric_column_keyerror :
    cleanPipeline ⟨["price", "mileage"], [[Cell.num 1, Cell.num 2]]⟩
      = Except.error "KeyError" := by decide

/-- C4: a value of a present numeric column that does not parse as a
number becomes missing at the (total, non-failing) coercion step; the
row holding it is absent from the invalid-row-removal output, that
step's reported count counts exactly the invalid rows (the row among
them), and the missing-value count reported earlier counts only cells
that were missing before coercion — which a non-parseable string is
not. -/
theorem claim4_invalid_numeric_row_removed (t : Table) (hR : Rect t = true)
    (hpres : ∀ c ∈ numeric_columns, c ∈ t.cols)
    (nc : String) (hnc : nc ∈ numeric_columns) (i : Nat)
    (hidx : findIdx t.cols nc = some i)
    (r : Row) (hr : r ∈ (dropnaStep (dedupStep t).1).rows)
    (s : PyStr) (hcell : getCell r i = Cell.str s) (hparse : parseNum s = none) :
    getCell (applyColsRow coerceCell numeric_columns t.cols r) i = Cell.missing ∧
    (∃ t4 n, invalidStep (to_numeric_step (dropnaStep (dedupStep t).1)) = Except.ok (t4, n) ∧
      applyColsRow coerceCell numeric_columns t.cols r ∉ t4.rows ∧
      n = (to_numeric_step (dropnaStep (dedupStep t).1)).rows.countP
            (fun r' => !(rowValid t.cols r')) ∧
      rowValid t.cols (applyColsRow coerceCell numeric_columns t.cols r) = false) ∧
    missingCount (dedupStep t).1
      = ((dedupStep t).1.rows.map (fun r' => r'.countP Cell.isMissing)).sum ∧
    (Cell.str s).isMissing = false := by
  have hmiss : getCell (applyColsRow coerceCell numeric_columns t.cols r) i = Cell.missing := by
    rw [applyColsRow_getCell_mem coerceCell coerceCell_missing numeric_columns t.cols
      numeric_columns_nodup hnc hidx r, hcell]
    simp only [coerceCell, hparse]
  have hrowinvalid : rowValid t.cols (applyColsRow coerceCell numeric_columns t.cols r) = false := by
    by_contra hcon
    rw [Bool.not_eq_false] at hcon
    have := rowValid_spec hcon hnc hidx
    rw [hmiss] at this
    simp [Cell.isMissing] at this
  refine ⟨hmiss, ?_, ?_, rfl⟩
  · have hpres' : numeric_columns.all
        (fun c => (findIdx (to_numeric_step (dropnaStep (dedupStep t).1)).cols c).isSome)
          = true := by
      rw [List.all_eq_true]
      intro c hc
      rw [show (to_numeric_step (dropnaStep (dedupStep t).1)).cols = t.cols from
        applyCols_cols coerceCell numeric_columns _]
      have : c ∈ t.cols := hpres c hc
      simpa using findIdx_isSome_iff_mem.mpr this
    refine ⟨_, _, invalidStep_ok hpres', ?_, ?_, hrowinvalid⟩
    · intro hmem
      have := List.of_mem_filter hmem
      rw [show (to_numeric_step (dropnaStep (dedupStep t).1)).cols = t.cols from
        applyCols_cols coerceCell numeric_columns _] at this
      rw [hrowinvalid] at this
      exact Bool.false_ne_true this
    · rw [show (to_numeric_step (dropnaStep (dedupStep t).1)).cols = t.cols from
        applyCols_cols coerceCell numeric_columns _]
      exact length_filter_sub _ _
  · exact missingCount_eq_sum_rows (Rect_of_sublist (drop_duplicates_sublist t.rows) hR)

/-- Witness for C4 at a concrete table whose `year` value is the string
`"abc"`. -/
theorem claim4_witness :
    getCell (applyColsRow coerceCell numeric_columns ["price", "mileage", "year"]
      [Cell.str [49], Cell.str [53], Cell.str [97, 98, 99]]) 2 = Cell.missing ∧
    (∃ t4 n, invalidStep (to_numeric_step (dropnaStep (dedupStep
        ⟨["price", "mileage", "year"],
          [[Cell.str [49], Cell.str [53], Cell.str [97, 98, 99]]]⟩).1)) = Except.ok (t4, n) ∧
      applyColsRow coerceCell numeric_columns ["price", "mileage", "year"]
        [Cell.str [49], Cell.str [53], Cell.str [97, 98, 99]] ∉ t4.rows ∧
      n = (to_numeric_step (dropnaStep (dedupStep
            ⟨["price", "mileage", "year"],
              [[Cell.str [49], Cell.str [53], Cell.str [97, 98, 99]]]⟩).1)).rows.countP
            (fun r' => !(rowValid ["price", "mileage", "year"] r')) ∧
      rowValid ["price", "mileage", "year"]
        (applyColsRow coerceCell numeric_columns ["price", "mileage", "year"]
          [Cell.str [49], Cell.str [53], Cell.str [97, 98, 99]]) = false) ∧
    missingCount (dedupStep ⟨["price", "mileage", "year"],
        [[Cell.str [49], Cell.str [53], Cell.str [97, 98, 99]]]⟩).1
      = ((dedupStep ⟨["price", "mileage", "year"],
          [[Cell.str [49], Cell.str [53], Cell.str [97, 98, 99]]]⟩).1.rows.map
            (fun r' => r'.countP Cell.isMissing)).sum ∧
    (Cell.str [97, 98, 99]).isMissing = false :=
  claim4_invalid_numeric_row_removed
    ⟨["price", "mileage", "year"], [[Cell.str [49], Cell.str [53], Cell.str [97, 98, 99]]]⟩
    (by decide) (by decide) "year" (by decide) 2 (by decide)
    [Cell.str [49], Cell.str [53], Cell.str [97, 98, 99]] (by decide)
    [97, 98, 99] (by decide) (by decide)

/-- C5: the missing-value-removal step keeps exactly the rows without a
missing cell in any column (dropping the rest, order preserved), and the
count it reports is the total number of missing cells of the table —
summed over all cells, which can differ from the number of rows
removed. -/
theorem claim5_missing_value_removal (t : Table) (hR : Rect t = true) :
    (dropnaStep t).rows.Sublist t.rows ∧
    (∀ r : Row, r ∈ (dropnaStep t).rows ↔ r ∈ t.rows ∧ ∀ c ∈ r, c ≠ Cell.missing) ∧
    missingCount t = (t.rows.map (fun r => r.countP Cell.isMissing)).sum := by
  refine ⟨List.filter_sublist _, ?_, missingCount_eq_sum_rows hR⟩
  intro r
  show r ∈ t.rows.filter (fun r => !rowHasMissing r) ↔ _
  rw [List.mem_filter]
  constructor
  · rintro ⟨h1, h2⟩
    exact ⟨h1, rowHasMissing_eq_false.mp (by simpa using h2)⟩
  · rintro ⟨h1, h2⟩
    exact ⟨h1, by simpa using rowHasMissing_eq_false.mpr h2⟩

/-- Witness for C5 at a concrete two-row table with one missing cell. -/
theorem claim5_witness :
    (dropnaStep ⟨["price"], [[Cell.num 1], [Cell.missing]]⟩).rows.Sublist
      [[Cell.num 1], [Cell.missing]] ∧
    (∀ r : Row, r ∈ (dropnaStep ⟨["price"], [[Cell.num 1], [Cell.missing]]⟩).rows ↔
      r ∈ [[Cell.num 1], [Cell.missing]] ∧ ∀ c ∈ r, c ≠ Cell.missing) ∧
    missingCount ⟨["price"], [[Cell.num 1], [Cell.missing]]⟩
      = ([[Cell.num 1], [Cell.missing]].map (fun r : Row => r.countP Cell.isMissing)).sum :=
  claim5_missing_value_removal ⟨["price"], [[Cell.num 1], [Cell.missing]]⟩ (by decide)

/-- C6: deduplication keeps an order-preserving sublist of the rows with
no duplicates and the same set of rows, the head row is always kept with
deduplication continuing on the tail purged of its copies (first
occurrence kept), the other filtering steps also return sublists (order
preserved), and on the concrete rows `[A, A, B]` the step returns
`[A, B]` with a reported count of 1. -/
theorem claim6_deduplication :
    (∀ l : List Row, (drop_duplicates l).Sublist l ∧ (drop_duplicates l).Nodup ∧
      (∀ r : Row, r ∈ drop_duplicates l ↔ r ∈ l)) ∧
    (∀ (a : Row) (l : List Row),
      drop_duplicates (a :: l) = a :: drop_duplicates (l.filter (· ≠ a))) ∧
    (∀ t : Table, (dropnaStep t).rows.Sublist t.rows) ∧
    (∀ (t t4 : Table) (n : Nat), invalidStep t = Except.ok (t4, n) →
      t4.rows.Sublist t.rows) ∧
    dedupStep ⟨["model"], [[Cell.str [97]], [Cell.str [97]], [Cell.str [98]]]⟩
      = (⟨["model"], [[Cell.str [97]], [Cell.str [98]]]⟩, 1) := by
  refine ⟨fun l => ⟨drop_duplicates_sublist l, nodup_drop_duplicates l,
      fun r => mem_drop_duplicates⟩,
    drop_duplicates_cons, fun t => List.filter_sublist _, ?_, by decide⟩
  intro t t4 n h
  obtain ⟨_, ht4, _⟩ := invalidStep_ok_inv h
  rw [ht4]
  exact List.filter_sublist _

/-- Witness for C6's invalid-step clause at a concrete table (every
other clause is universally quantified without hypotheses). -/
theorem claim6_witness :
    (⟨["price", "mileage", "year"], ([] : List Row)⟩ : Table).rows.Sublist
      (⟨["price", "mileage", "year"],
        [[Cell.num 1, Cell.num 2, Cell.missing]]⟩ : Table).rows :=
  claim6_deduplication.2.2.2.1
    ⟨["price", "mileage", "year"], [[Cell.num 1, Cell.num 2, Cell.missing]]⟩
    ⟨["price", "mileage", "year"], []⟩ 1 (by decide)

/-- C8: on an empty clean table the statistics derivation fails: with
the columns present, `int(data['year'].min())` raises `ValueError`
because the minimum of an empty column is `NaN`; with a column absent it
raises `KeyError` even earlier. The program has no guard for this
case. -/
theorem claim8_statistics_empty_table (t : Table) (h : t.rows = []) :
    ∃ e, statistics t = Except.error e := by
  by_cases hp : "price" ∈ t.cols ∧ "mileage" ∈ t.cols ∧ "year" ∈ t.cols
  · refine ⟨"ValueError", ?_⟩
    have hcol : getCol t "year" = [] := by
      unfold getCol
      cases hf : findIdx t.cols "year" with
      | none => rfl
      | some i => rw [h]; rfl
    unfold statistics
    rw [if_pos hp]
    simp only []
    rw [hcol]
    rfl
  · refine ⟨"KeyError", ?_⟩
    unfold statistics
    rw [if_neg hp]

/-- Witness for C8 at a concrete empty table with all three statistic
columns present. -/
theorem claim8_witness :
    ∃ e, statistics ⟨["price", "mileage", "year"], []⟩ = Except.error e :=
  claim8_statistics_empty_table ⟨["price", "mileage", "year"], []⟩ rfl

theorem value_counts_sorted (cells : List Cell) :
    (value_counts cells).Pairwise countDesc :=
  List.sorted_insertionSort countDesc _

theorem value_counts_length (cells : List Cell) :
    (value_counts cells).length = distinctCount cells := by
  unfold value_counts distinctCount
  rw [(List.perm_insertionSort countDesc _).length_eq, List.length_map]

theorem take_value_counts_spec (cells : List Cell) (n : Nat) :
    ((value_counts cells).take n).length = min n (distinctCount cells) ∧
    ((value_counts cells).take n).Pairwise countDesc :=
  ⟨by rw [List.length_take, value_counts_length],
    List.Pairwise.sublist (List.take_sublist n _) (value_counts_sorted cells)⟩

/-- C9: both year-based line charts present their points sorted
ascending by year, for every table the charts are derived from — the
year-count chart by the explicit `sort_values('year')`, the
mean-price-per-year chart by the ascending key order of `groupby`. -/
theorem claim9_year_charts_sorted (t : Table) :
    (∀ l, yearChartData t = some l → l.Pairwise yearAsc) ∧
    (∀ l, avgPriceYearData t = some l →
      l.Pairwise (fun p q : Cell × ℚ => cellKey p.1 ≤ cellKey q.1)) := by
  constructor
  · intro l hl
    cases hf : findIdx t.cols "year" with
    | none => simp [yearChartData, hf] at hl
    | some i =>
      simp only [yearChartData, hf, Option.some.injEq] at hl
      rw [← hl]
      exact List.sorted_insertionSort yearAsc _
  · intro l hl
    cases hfy : findIdx t.cols "year" with
    | none => simp [avgPriceYearData, hfy] at hl
    | some yi =>
      cases hfp : findIdx t.cols "price" with
      | none => simp [avgPriceYearData, hfy, hfp] at hl
      | some pi =>
        simp only [avgPriceYearData, hfy, hfp, Option.some.injEq] at hl
        rw [← hl]
        exact List.Pairwise.map _ (fun a b hab => hab)
          (List.sorted_insertionSort cellAsc _)

/-- Witness for C9 at a concrete two-row table whose input row order is
descending in year. -/
theorem claim9_witness :
    ([((Cell.num 2000 : Cell), (1 : Nat)), (Cell.num 2001, 1)].Pairwise yearAsc) ∧
    ([((Cell.num 2000 : Cell), (3 : ℚ)), (Cell.num 2001, 1)].Pairwise
      (fun p q : Cell × ℚ => cellKey p.1 ≤ cellKey q.1)) :=
  ⟨(claim9_year_charts_sorted
      ⟨["price", "year"], [[Cell.num 100000, Cell.num 2001], [Cell.num 300000, Cell.num 2000]]⟩).1
    [(Cell.num 2000, 1), (Cell.num 2001, 1)] (by decide),
   (claim9_year_charts_sorted
      ⟨["price", "year"], [[Cell.num 100000, Cell.num 2001], [Cell.num 300000, Cell.num 2000]]⟩).2
    [(Cell.num 2000, 3), (Cell.num 2001, 1)] (by decide)⟩

/-- C10: each top-N frequency chart lists exactly
`min(N, number of distinct values)` entries in descending order of
frequency; with fewer than N distinct values everything is shown, with
no padding and no error. -/
theorem claim10_topn_charts (t : Table) :
    (∀ l, modelChartData t = some l →
      l.length = min 15 (distinctCount (getCol t "model")) ∧ l.Pairwise countDesc) ∧
    (∀ l, colorChartData t = some l →
      l.length = min 15 (distinctCount (getCol t "color")) ∧ l.Pairwise countDesc) ∧
    (∀ l, cityChartData t = some l →
      l.length = min 10 (distinctCount (getCol t "city")) ∧ l.Pairwise countDesc) := by
  refine ⟨fun l hl => ?_, fun l hl => ?_, fun l hl => ?_⟩
  · cases hf : findIdx t.cols "model" with
    | none => simp [modelChartData, hf] at hl
    | some i =>
      simp only [modelChartData, hf, Option.some.injEq] at hl
      rw [← hl]
      exact take_value_counts_spec _ 15
  · cases hf : findIdx t.cols "color" with
    | none => simp [colorChartData, hf] at hl
    | some i =>
      simp only [colorChartData, hf, Option.some.injEq] at hl
      rw [← hl]
      exact take_value_counts_spec _ 15
  · cases hf : findIdx t.cols "city" with
    | none => simp [cityChartData, hf] at hl
    | some i =>
      simp only [cityChartData, hf, Option.some.injEq] at hl
      rw [← hl]
      exact take_value_counts_spec _ 10

/-- Witness for C10 at a one-row table: each chart shows its single
distinct value, `min(N, 1) = 1` entries, without error. -/
theorem claim10_witness :
    ([((Cell.str [97] : Cell), (1 : Nat))].length = min 15 (distinctCount
      (getCol ⟨["model", "color", "city"],
        [[Cell.str [97], Cell.str [98], Cell.str [99]]]⟩ "model")) ∧
      [((Cell.str [97] : Cell), (1 : Nat))].Pairwise countDesc) ∧
    ([((Cell.str [98] : Cell), (1 : Nat))].length = min 15 (distinctCount
      (getCol ⟨["model", "color", "city"],
        [[Cell.str [97], Cell.str [98], Cell.str [99]]]⟩ "color")) ∧
      [((Cell.str [98] : Cell), (1 : Nat))].Pairwise countDesc) ∧
    ([((Cell.str [99] : Cell), (1 : Nat))].length = min 10 (distinctCount
      (getCol ⟨["model", "color", "city"],
        [[Cell.str [97], Cell.str [98], Cell.str [99]]]⟩ "city")) ∧
      [((Cell.str [99] : Cell), (1 : Nat))].Pairwise countDesc) :=
  ⟨(claim10_topn_charts ⟨["model", "color", "city"],
      [[Cell.str [97], Cell.str [98], Cell.str [99]]]⟩).1 [(Cell.str [97], 1)] (by decide),
   (claim10_topn_charts ⟨["model", "color", "city"],
      [[Cell.str [97], Cell.str [98], Cell.str [99]]]⟩).2.1 [(Cell.str [98], 1)] (by decide),
   (claim10_topn_charts ⟨["model", "color", "city"],
      [[Cell.str [97], Cell.str [98], Cell.str [99]]]⟩).2.2 [(Cell.str [99], 1)] (by decide)⟩

theorem modifyIdx_comp (f g : Cell → Cell) (j : Nat) (r : Row) :
    modifyIdx f j (modifyIdx g j r) = modifyIdx (fun c => f (g c)) j r := by
  induction r generalizing j with
  | nil => cases j <;> rfl
  | cons c r ih =>
    cases j with
    | zero => rfl
    | succ j' => simpa [modifyIdx] using ih j'

theorem getCell_append_self (r : Row) (v : Cell) :
    getCell (r ++ [v]) r.length = v := by
  unfold getCell
  rw [List.get?_append_right (le_refl _), Nat.sub_self]
  rfl

theorem priceLakhsAssign_rows_length (t : Table) :
    (priceLakhsAssign t).rows.length = t.rows.length := by
  cases hp : findIdx t.cols "price" with
  | none => simp only [priceLakhsAssign, hp]
  | some i =>
    cases hq : findIdx t.cols "price_in_lakhs" with
    | some j => simp [priceLakhsAssign, hp, hq]
    | none => simp [priceLakhsAssign, hp, hq]

theorem priceLakhsAssign_idem {t : Table} (hR : Rect t = true) :
    priceLakhsAssign (priceLakhsAssign t) = priceLakhsAssign t := by
  cases hp : findIdx t.cols "price" with
  | none =>
    have h1 : priceLakhsAssign t = t := by simp only [priceLakhsAssign, hp]
    rw [h1, h1]
  | some i =>
    cases hq : findIdx t.cols "price_in_lakhs" with
    | some j =>
      have hij : i ≠ j := fun he =>
        (by decide : "price" ≠ "price_in_lakhs") (findIdx_inj hp (he ▸ hq))
      have h1 : priceLakhsAssign t
          = ⟨t.cols, t.rows.map (fun r => modifyIdx (fun _ => divLakh (getCell r i)) j r)⟩ := by
        simp only [priceLakhsAssign, hp, hq]
      rw [h1]
      simp only [priceLakhsAssign, hp, hq]
      refine congrArg (Table.mk t.cols) ?_
      rw [List.map_map]
      refine List.map_congr_left (fun r hr => ?_)
      simp only [Function.comp]
      rw [getCell_modifyIdx_ne _ hij r, modifyIdx_comp]
    | none =>
      have hi_lt : i < t.cols.length := findIdx_lt_length hp
      have h1 : priceLakhsAssign t = ⟨t.cols ++ ["price_in_lakhs"],
          t.rows.map (fun r => r ++ [divLakh (getCell r i)])⟩ := by
        simp only [priceLakhsAssign, hp, hq]
      rw [h1]
      have hp' : findIdx (t.cols ++ ["price_in_lakhs"]) "price" = some i :=
        findIdx_append_left hp
      have hq' : findIdx (t.cols ++ ["price_in_lakhs"]) "price_in_lakhs"
          = some t.cols.length := findIdx_append_self hq
      simp only [priceLakhsAssign, hp', hq']
      refine congrArg (Table.mk _) ?_
      rw [List.map_map]
      refine List.map_congr_left (fun r hr => ?_)
      simp only [Function.comp]
      have hrl : r.length = t.cols.length := Rect_spec hR r hr
      rw [getCell_append_lt (by omega)]
      refine modifyIdx_eq_self ?_
      rw [← hrl, getCell_append_self]

theorem priceLakhsAssign_getCol {t : Table} (hR : Rect t = true) {c : String}
    (hc : c ∈ t.cols) (hne : c ≠ "price_in_lakhs") :
    getCol (priceLakhsAssign t) c = getCol t c := by
  obtain ⟨k, hk⟩ : ∃ k, findIdx t.cols c = some k := by
    have hs := findIdx_isSome_iff_mem.mpr hc
    cases hfc : findIdx t.cols c with
    | none => rw [hfc] at hs; simp at hs
    | some k => exact ⟨k, rfl⟩
  cases hp : findIdx t.cols "price" with
  | none => simp only [priceLakhsAssign, hp]
  | some i =>
    cases hq : findIdx t.cols "price_in_lakhs" with
    | some j =>
      have hkj : k ≠ j := fun he => hne (findIdx_inj hk (he ▸ hq))
      simp only [priceLakhsAssign, hp, hq, getCol, hk, List.map_map]
      refine List.map_congr_left (fun r hr => ?_)
      exact getCell_modifyIdx_ne _ hkj r
    | none =>
      have hk' : findIdx (t.cols ++ ["price_in_lakhs"]) c = some k := findIdx_append_left hk
      have hklt : k < t.cols.length := findIdx_lt_length hk
      simp only [priceLakhsAssign, hp, hq, getCol, hk, hk', List.map_map]
      refine List.map_congr_left (fun r hr => ?_)
      have hrl : r.length = t.cols.length := Rect_spec hR r hr
      exact getCell_append_lt (by omega)

/-- C3's claim that the reporting stage never modifies the clean table
is false: the price-distribution block executes
`data['price_in_lakhs'] = data['price'] / 100_000`, which adds a column.
On a concrete clean table (shown to be the pipeline's own output) the
reporting stage returns a table different from its input. -/
theorem claim3_counterexample :
    cleanPipeline ⟨["price", "mileage", "year"],
        [[Cell.num 200000, Cell.num 10, Cell.num 2015]]⟩
      = Except.ok (⟨["price", "mileage", "year"],
        [[Cell.num 200000, Cell.num 10, Cell.num 2015]]⟩, ⟨0, 0, 0⟩) ∧
    reportEffect ⟨["price", "mileage", "year"],
        [[Cell.num 200000, Cell.num 10, Cell.num 2015]]⟩
      ≠ ⟨["price", "mileage", "year"], [[Cell.num 200000, Cell.num 10, Cell.num 2015]]⟩ :=
  ⟨by decide, by decide⟩

/-- C3 (amended): seven of the nine chart blocks leave the table
entirely unchanged; the price-distribution and mileage-vs-price blocks
both perform the same `price_in_lakhs` assignment, so the whole
reporting stage's effect collapses to that single assignment — the
second one changes nothing. Every original column's values and the row
count are untouched; only the derived `price_in_lakhs` column is added
(or overwritten). -/
theorem claim3_report_reads_only (t : Table) (hR : Rect t = true) :
    reportEffect t = mileageBlockEffect (priceBlockEffect t) ∧
    modelBlockEffect t = t ∧ fuelBlockEffect t = t ∧ transmissionBlockEffect t = t ∧
    yearBlockEffect t = t ∧ colorBlockEffect t = t ∧ avgPriceBlockEffect t = t ∧
    cityBlockEffect t = t ∧
    mileageBlockEffect (priceBlockEffect t) = priceBlockEffect t ∧
    (∀ c, c ∈ t.cols → c ≠ "price_in_lakhs" → getCol (reportEffect t) c = getCol t c) ∧
    (reportEffect t).rows.length = t.rows.length := by
  have hmain : mileageBlockEffect (priceBlockEffect t) = priceBlockEffect t := by
    show mileageBlockEffect (priceLakhsAssign t) = priceLakhsAssign t
    cases hm : findIdx (priceLakhsAssign t).cols "mileage" with
    | none => simp only [mileageBlockEffect, hm]
    | some mi =>
      cases hpp : findIdx (priceLakhsAssign t).cols "price" with
      | none => simp only [mileageBlockEffect, hm, hpp]
      | some pi =>
        simp only [mileageBlockEffect, hm, hpp]
        exact priceLakhsAssign_idem hR
  have hreport : reportEffect t = mileageBlockEffect (priceBlockEffect t) := rfl
  refine ⟨hreport, rfl, rfl, rfl, rfl, rfl, rfl, rfl, hmain, ?_, ?_⟩
  · intro c hc hne
    rw [hreport, hmain]
    exact priceLakhsAssign_getCol hR hc hne
  · rw [hreport, hmain]
    exact priceLakhsAssign_rows_length t

/-- Witness for the amended C3 at a concrete one-column table. -/
theorem claim3_witness :
    reportEffect ⟨["price"], [[Cell.num 100000]]⟩
      = mileageBlockEffect (priceBlockEffect ⟨["price"], [[Cell.num 100000]]⟩) ∧
    modelBlockEffect ⟨["price"], [[Cell.num 100000]]⟩ = ⟨["price"], [[Cell.num 100000]]⟩ ∧
    fuelBlockEffect ⟨["price"], [[Cell.num 100000]]⟩ = ⟨["price"], [[Cell.num 100000]]⟩ ∧
    transmissionBlockEffect ⟨["price"], [[Cell.num 100000]]⟩ = ⟨["price"], [[Cell.num 100000]]⟩ ∧
    yearBlockEffect ⟨["price"], [[Cell.num 100000]]⟩ = ⟨["price"], [[Cell.num 100000]]⟩ ∧
    colorBlockEffect ⟨["price"], [[Cell.num 100000]]⟩ = ⟨["price"], [[Cell.num 100000]]⟩ ∧
    avgPriceBlockEffect ⟨["price"], [[Cell.num 100000]]⟩ = ⟨["price"], [[Cell.num 100000]]⟩ ∧
    cityBlockEffect ⟨["price"], [[Cell.num 100000]]⟩ = ⟨["price"], [[Cell.num 100000]]⟩ ∧
    mileageBlockEffect (priceBlockEffect ⟨["price"], [[Cell.num 100000]]⟩)
      = priceBlockEffect ⟨["price"], [[Cell.num 100000]]⟩ ∧
    (∀ c, c ∈ (⟨["price"], [[Cell.num 100000]]⟩ : Table).cols → c ≠ "price_in_lakhs" →
      getCol (reportEffect ⟨["price"], [[Cell.num 100000]]⟩) c
        = getCol ⟨["price"], [[Cell.num 100000]]⟩ c) ∧
    (reportEffect ⟨["price"], [[Cell.num 100000]]⟩).rows.length
      = (⟨["price"], [[Cell.num 100000]]⟩ : Table).rows.length :=
  claim3_report_reads_only ⟨["price"], [[Cell.num 100000]]⟩ (by decide)

/-- C2's no-duplicate clause is false on the code: deduplication runs
before numeric coercion, so two raw rows that differ as strings
(`"1"` vs `"1.00"`) both survive it and coerce to identical rows. On
this concrete input (the third row's `"abc"` keeps the column
string-typed, as in a real CSV load) the pipeline output contains two
equal rows. -/
theorem claim2_counterexample :
    cleanPipeline ⟨["price", "mileage", "year", "model"],
        [[Cell.str [49], Cell.str [53], Cell.str [50, 48, 48, 48], Cell.str [97]],
         [Cell.str [49, 46, 48, 48], Cell.str [53], Cell.str [50, 48, 48, 48], Cell.str [97]],
         [Cell.str [97, 98, 99], Cell.str [53], Cell.str [50, 48, 48, 48], Cell.str [97]]]⟩
      = Except.ok (⟨["price", "mileage", "year", "model"],
        [[Cell.num 1, Cell.num 5, Cell.num 2000, Cell.str [97]],
         [Cell.num 1, Cell.num 5, Cell.num 2000, Cell.str [97]]]⟩, ⟨0, 0, 1⟩) ∧
    ¬(⟨["price", "mileage", "year", "model"],
        [[Cell.num 1, Cell.num 5, Cell.num 2000, Cell.str [97]],
         [Cell.num 1, Cell.num 5, Cell.num 2000, Cell.str [97]]]⟩ : Table).rows.Nodup :=
  ⟨by decide, by decide⟩

/-- C2 (amended): on every CSV-shaped input (rectangular rows, columns
that do not mix numeric and string values — the shape `pd.read_csv`
always produces), every row of the pipeline's output has no missing
value in any column, a number in each present numeric column, and a
stripped, lower-cased string in each present categorical column; the
rows are pairwise distinct at the deduplication step, though the final
output may repeat rows merged by the later numeric coercion. -/
theorem claim2_clean_invariants (t t' : Table) (cnt : CleanCounts)
    (hR : Rect t = true) (hW : wellTyped t = true)
    (h : cleanPipeline t = Except.ok (t', cnt)) :
    (∀ r ∈ t'.rows, ∀ c ∈ r, c ≠ Cell.missing) ∧
    (∀ nc ∈ numeric_columns, ∀ i, findIdx t'.cols nc = some i →
      ∀ r ∈ t'.rows, ∃ q, getCell r i = Cell.num q) ∧
    (∀ cc ∈ categorical_columns, ∀ i, findIdx t'.cols cc = some i →
      ∀ r ∈ t'.rows, ∃ s, getCell r i = Cell.str s ∧ pyStrip s = s ∧ pyLower s = s) ∧
    (dedupStep t).1.rows.Nodup := by
  obtain ⟨hcols, hR', hnomiss, hnum, hcat⟩ := clean_inv hR hW h
  have hlencols : t'.cols.length = t.cols.length := by rw [hcols]
  refine ⟨?_, ?_, ?_, nodup_drop_duplicates t.rows⟩
  · intro r hr c hc
    obtain ⟨i, hilt, rfl⟩ := mem_getCell hc
    have hrt : r.length = t'.cols.length := Rect_spec hR' r hr
    exact hnomiss i (by omega) _ (List.mem_map_of_mem _ hr)
  · intro nc hnc i hi r hr
    exact hnum nc hnc i (hcols ▸ hi) _ (List.mem_map_of_mem _ hr)
  · intro cc hcc i hi r hr
    exact hcat cc hcc i (hcols ▸ hi) _ (List.mem_map_of_mem _ hr)

/-- Witness for the amended C2 at a concrete one-row table whose model
value carries whitespace and upper case. -/
theorem claim2_witness :
    (∀ r ∈ (⟨["price", "mileage", "year", "model"],
        [[Cell.num 1, Cell.num 5, Cell.num 2000, Cell.str [97]]]⟩ : Table).rows,
      ∀ c ∈ r, c ≠ Cell.missing) ∧
    (∀ nc ∈ numeric_columns, ∀ i,
      findIdx (⟨["price", "mileage", "year", "model"],
        [[Cell.num 1, Cell.num 5, Cell.num 2000, Cell.str [97]]]⟩ : Table).cols nc = some i →
      ∀ r ∈ (⟨["price", "mileage", "year", "model"],
        [[Cell.num 1, Cell.num 5, Cell.num 2000, Cell.str [97]]]⟩ : Table).rows,
        ∃ q, getCell r i = Cell.num q) ∧
    (∀ cc ∈ categorical_columns, ∀ i,
      findIdx (⟨["price", "mileage", "year", "model"],
        [[Cell.num 1, Cell.num 5, Cell.num 2000, Cell.str [97]]]⟩ : Table).cols cc = some i →
      ∀ r ∈ (⟨["price", "mileage", "year", "model"],
        [[Cell.num 1, Cell.num 5, Cell.num 2000, Cell.str [97]]]⟩ : Table).rows,
        ∃ s, getCell r i = Cell.str s ∧ pyStrip s = s ∧ pyLower s = s) ∧
    (dedupStep ⟨["price", "mileage", "year", "model"],
      [[Cell.str [49], Cell.str [53], Cell.str [50, 48, 48, 48],
        Cell.str [32, 65, 32]]]⟩).1.rows.Nodup :=
  claim2_clean_invariants
    ⟨["price", "mileage", "year", "model"],
      [[Cell.str [49], Cell.str [53], Cell.str [50, 48, 48, 48], Cell.str [32, 65, 32]]]⟩
    ⟨["price", "mileage", "year", "model"],
      [[Cell.num 1, Cell.num 5, Cell.num 2000, Cell.str [97]]]⟩
    ⟨0, 0, 0⟩ (by decide) (by decide) (by decide)

/-- C7's idempotence claim is false on the code: the pipeline can output
a table with duplicate rows (distinct raw strings coercing to equal
numbers), and re-running the pipeline on that output removes the
duplicate, yielding a different table. -/
theorem claim7_counterexample :
    cleanPipeline ⟨["price", "mileage", "year"],
        [[Cell.str [49], Cell.str [53], Cell.str [50, 48, 48, 48]],
         [Cell.str [49, 46, 48, 48], Cell.str [53], Cell.str [50, 48, 48, 48]],
         [Cell.str [97, 98, 99], Cell.str [53], Cell.str [50, 48, 48, 48]]]⟩
      = Except.ok (⟨["price", "mileage", "year"],
        [[Cell.num 1, Cell.num 5, Cell.num 2000],
         [Cell.num 1, Cell.num 5, Cell.num 2000]]⟩, ⟨0, 0, 1⟩) ∧
    cleanPipeline ⟨["price", "mileage", "year"],
        [[Cell.num 1, Cell.num 5, Cell.num 2000],
         [Cell.num 1, Cell.num 5, Cell.num 2000]]⟩
      = Except.ok (⟨["price", "mileage", "year"],
        [[Cell.num 1, Cell.num 5, Cell.num 2000]]⟩, ⟨1, 0, 0⟩) ∧
    (⟨["price", "mileage", "year"], [[Cell.num 1, Cell.num 5, Cell.num 2000]]⟩ : Table)
      ≠ ⟨["price", "mileage", "year"],
        [[Cell.num 1, Cell.num 5, Cell.num 2000],
         [Cell.num 1, Cell.num 5, Cell.num 2000]]⟩ :=
  ⟨by decide, by decide, by decide⟩

/-- C7 (amended): on every CSV-shaped input, whenever the pipeline
succeeds and its output happens to have no duplicate rows (coercion
merged nothing), re-running the pipeline on that output returns it
unchanged, with all three reported counts zero. -/
theorem claim7_idempotent_on_clean (t t' : Table) (cnt : CleanCounts)
    (hR : Rect t = true) (hW : wellTyped t = true)
    (h : cleanPipeline t = Except.ok (t', cnt)) (hnd : t'.rows.Nodup) :
    cleanPipeline t' = Except.ok (t', ⟨0, 0, 0⟩) := by
  obtain ⟨hcols, hR', hnomiss, hnum, hcat⟩ := clean_inv hR hW h
  have hlencols : t'.cols.length = t.cols.length := by rw [hcols]
  refine cleanPipeline_fixed hR' hnd ?_ ?_ ?_ ?_
  · intro i hi cell hcell
    exact hnomiss i (by omega) cell hcell
  · intro nc hnc i hi cell hcell
    obtain ⟨q, rfl⟩ := hnum nc hnc i (hcols ▸ hi) cell hcell
    rfl
  · intro cc hcc i hi cell hcell
    obtain ⟨s, rfl, hstrip, hlower⟩ := hcat cc hcc i (hcols ▸ hi) cell hcell
    refine ⟨?_, rfl⟩
    show Cell.str (pyLower (pyStrip s)) = Cell.str s
    rw [hstrip, hlower]
  · obtain ⟨t4, inv, hinv, _, _⟩ := cleanPipeline_ok_inv h
    obtain ⟨hpres, _, _⟩ := invalidStep_ok_inv hinv
    rw [show (to_numeric_step (dropnaStep (dedupStep t).1)).cols = t.cols from
      applyCols_cols coerceCell numeric_columns _] at hpres
    rw [hcols]
    exact hpres

/-- Witness for the amended C7 at a concrete one-row table: the second
run returns the cleaned table unchanged with zero counts. -/
theorem claim7_witness :
    cleanPipeline ⟨["price", "mileage", "year", "model"],
        [[Cell.num 2, Cell.num 7, Cell.num 2010, Cell.str [98]]]⟩
      = Except.ok (⟨["price", "mileage", "year", "model"],
        [[Cell.num 2, Cell.num 7, Cell.num 2010, Cell.str [98]]]⟩, ⟨0, 0, 0⟩) :=
  claim7_idempotent_on_clean
    ⟨["price", "mileage", "year", "model"],
      [[Cell.str [50], Cell.str [55], Cell.str [50, 48, 49, 48], Cell.str [32, 66, 32]]]⟩
    ⟨["price", "mileage", "year", "model"],
      [[Cell.num 2, Cell.num 7, Cell.num 2010, Cell.str [98]]]⟩
    ⟨0, 0, 0⟩ (by decide) (by decide) (by decide) (by decide)

end UsedCars
